import Mathlib

/-!
# Cutter: amoCRM webhook to spreadsheet synchronisation (`server.js`)

A shallow embedding of the ingestion and deduplication pipeline of `server.js`:
`getAllEmailsFromSheet`, `addEmailToSheet`, the `POST /webhook/amocrm` handler and the
`POST /add-test-email` handler.

Modelling conventions.

* The spreadsheet is the list of its data rows (row 2 onwards), each row a `Record`
  (column A, column B).  `values.append` adds one row at the end when it settles and
  leaves the sheet as it is when it rejects.
* What a handler gets from outside the source file is an explicit environment `Env`:
  the `String.prototype.toLowerCase` of the runtime and its coercion of strings, arrays
  and objects in `x > 0`, whether the `values.get` of the call settles, whether the k-th
  `values.append` of the call settles, and the date string produced at the k-th append.
* A JavaScript `Set` of strings is a duplicate-free list in insertion order.
* A request body is a parsed JSON value, `Json`; property reads, truthiness, `for ... of`
  and the method calls of the handlers are defined on every such value, a `TypeError`
  included.
* A thrown `TypeError` inside the `try` block of the webhook handler ends the loops; the
  state reached so far is kept (`Except State State`).
* Strings are Lean strings.  `trim` removes the ECMAScript white space and line
  terminator code points.  `toLowerCase` rests on the Unicode case tables of the runtime,
  which are no part of the repository: it is a field of `Env`, and the theorems that need
  a fact about it assume `LawfulLower`.  The examples run with `asciiLower`, which maps
  the letters `A`..`Z` and is lawful.
* Every handler state carries a `log` with one `Event` per candidate email that reached
  the membership test, in the order the loops met them; the events are the three console
  lines of the source (line 115, line 64, line 67).
-/

namespace Cutter

/-! ## Strings -/

/-- White space and line terminators of ECMAScript, the code points `trim` strips. -/
def isWhiteSpace (c : Char) : Bool :=
  let n := c.toNat
  n == 0x09 || n == 0x0A || n == 0x0B || n == 0x0C || n == 0x0D || n == 0x20 ||
  n == 0xA0 || n == 0x1680 || (0x2000 ≤ n && n ≤ 0x200A) || n == 0x2028 ||
  n == 0x2029 || n == 0x202F || n == 0x205F || n == 0x3000 || n == 0xFEFF

/-- Strip trailing white space from a list of characters. -/
def dropTrailing (l : List Char) : List Char :=
  (l.reverse.dropWhile isWhiteSpace).reverse

/-- `String.prototype.trim`. -/
def trim (s : String) : String :=
  ⟨dropTrailing (s.data.dropWhile isWhiteSpace)⟩

/-- `String.prototype.toLowerCase` on the letters `A`..`Z`, every other character kept:
the case map the examples run with. -/
def asciiLower (s : String) : String :=
  ⟨s.data.map Char.toLower⟩

/-- Substring test on character lists. -/
def includesList (sub : List Char) : List Char → Bool
  | [] => sub.isEmpty
  | c :: cs => sub.isPrefixOf (c :: cs) || includesList sub cs

/-- `String.prototype.includes`. -/
def includes (s sub : String) : Bool :=
  includesList sub.data s.data

/-- Truthiness of a JavaScript string: every string but the empty one. -/
def truthy (s : String) : Bool :=
  !s.data.isEmpty

/-- The two facts about `String.prototype.toLowerCase` the proofs use: white space has no
case, so lowercasing commutes with `trim`; and `@` has no case and is the lowercase of
nothing else, so lowercasing neither removes nor creates an `@`. -/
structure LawfulLower (toLowerCase : String → String) : Prop where
  trim_comm : ∀ s, trim (toLowerCase s) = toLowerCase (trim s)
  at_iff : ∀ s, includes (toLowerCase s) "@" = includes s "@"

/-! ## JavaScript `Set` of strings -/

/-- `Set.prototype.has`. -/
def setHas (s : List String) (x : String) : Bool :=
  s.contains x

/-- `Set.prototype.add`. -/
def setAdd (s : List String) (x : String) : List String :=
  if setHas s x then s else s ++ [x]

/-- `new Set(iterable)`. -/
def newSet (l : List String) : List String :=
  l.foldl setAdd []

/-! ## JSON values -/

/-- A value of a parsed JSON body.  A number is kept as an integer: the handlers look at
a number only through its sign (its truthiness and `> 0`), so an integer stands for every
number of its sign. -/
inductive Json where
  | null
  | bool (b : Bool)
  | num (n : Int)
  | str (s : String)
  | arr (items : List Json)
  | obj (members : List (String × Json))

/-- The own property `key` of a parsed object, `none` for `undefined`; of two members
with one key `JSON.parse` keeps the later one. -/
def member (members : List (String × Json)) (key : String) : Option Json :=
  (members.reverse.find? fun m => m.1 == key).map fun m => m.2

/-- The expression `x.key` for the keys the handlers read from a body (`contacts`,
`custom_fields`, `code`, `name`, `values`, `value`, `email`).  The outer `none` is the
`TypeError` of reading a property of `null`; `some none` is `undefined`.  A string, a
number, a Boolean and an array have no property of these names, with one exception:
`values` of an array is the built-in method, a truthy function whose `length` is 0, which
line 98, the one place that reads `values`, skips exactly as it skips `undefined`. -/
def getProp (x : Json) (key : String) : Option (Option Json) :=
  match x with
  | .null => none
  | .obj members => some (member members key)
  | _ => some none

/-- Truthiness of a value (`none` is `undefined`). -/
def isTruthy : Option Json → Bool
  | none => false
  | some .null => false
  | some (.bool b) => b
  | some (.num n) => n != 0
  | some (.str s) => truthy s
  | some (.arr _) => true
  | some (.obj _) => true

/-- The comparison `x === s` with a string `s`. -/
def strictEquals (x : Option Json) (s : String) : Bool :=
  match x with
  | some (.str t) => t == s
  | _ => false

/-- What `for (const y of x)` iterates over: the items of an array, the characters of a
string; `none` is the `TypeError` of a value that is not iterable. -/
def iterate : Json → Option (List Json)
  | .arr items => some items
  | .str s => some (s.data.map fun c => .str (String.singleton c))
  | _ => none

/-! ## Data model -/

/-- One data row of the sheet: column A (email) and column B (date). -/
structure Record where
  email : String
  date : String
  deriving DecidableEq

/-- What one handler invocation gets from outside the source file: the runtime's
`toLowerCase` and number coercion, and the outcomes of the calls of the Sheets API. -/
structure Env where
  /-- `String.prototype.toLowerCase` -/
  toLowerCase : String → String
  /-- `x > 0` for a string, an array or an object `x`, which the runtime decides by
  `ToPrimitive` and `StringToNumber`; `none` when the coercion throws -/
  coerceGtZero : Json → Option Bool
  /-- whether `sheets.spreadsheets.values.get` settles without throwing -/
  readOk : Bool
  /-- whether the k-th `sheets.spreadsheets.values.append` of the call settles -/
  appendOk : Nat → Bool
  /-- the `toLocaleDateString` result at the k-th append of the call -/
  dateAt : Nat → String

/-- What happened to one candidate email at the membership test. -/
inductive Event where
  /-- `existingEmails.has` was true: the "already present" branch -/
  | skipped (email : String)
  /-- `addEmailToSheet` was called and returned `true` -/
  | appended (email : String)
  /-- `addEmailToSheet` was called and returned `false` -/
  | appendFailed (email : String)
  deriving DecidableEq

/-- The email string the event is about. -/
def Event.email : Event → String
  | .skipped e => e
  | .appended e => e
  | .appendFailed e => e

/-- Whether the event is a call of `addEmailToSheet`. -/
def Event.isAppendCall : Event → Bool
  | .skipped _ => false
  | .appended _ => true
  | .appendFailed _ => true

/-- Whether the event is a call of `addEmailToSheet` that returned `true`. -/
def Event.isAppended : Event → Bool
  | .appended _ => true
  | _ => false

/-- The variables of one run of the webhook handler, with the sheet. -/
structure State where
  sheet : List Record
  existingEmails : List String
  addedCount : Nat
  /-- number of `values.append` calls made so far in this run -/
  appendCalls : Nat
  log : List Event
  deriving DecidableEq

/-! ## `getAllEmailsFromSheet` and `addEmailToSheet` -/

/-- `response.data.values` for the range `A2:A`: one single-cell row per data row, and no
`values` key at all when the range holds no data. -/
def columnA (sheet : List Record) : Option (List (List String)) :=
  if sheet.isEmpty then none else some (sheet.map fun r => [r.email])

/-- `getAllEmailsFromSheet` (lines 24-45): `none` stands for a rejected `values.get`. -/
def getAllEmailsFromSheet (toLowerCase : String → String)
    (response : Option (Option (List (List String)))) : List String :=
  match response with
  | some (some values) =>
      let emails := values.flatten.filter fun email => truthy email && includes email "@"
      newSet (emails.map fun email => trim (toLowerCase email))
  | some none => newSet []
  | none => newSet []

/-- The `values.get` response the environment gives for a sheet. -/
def readResponse (env : Env) (sheet : List Record) : Option (Option (List (List String))) :=
  if env.readOk then some (columnA sheet) else none

/-- `addEmailToSheet` (lines 48-70) as a state transformer on the sheet; the Boolean is
its return value. -/
def addEmailToSheet (env : Env) (st : State) (email : String) : Bool × State :=
  if env.appendOk st.appendCalls then
    (true, { st with sheet := st.sheet ++ [⟨email, env.dateAt st.appendCalls⟩],
                     appendCalls := st.appendCalls + 1 })
  else
    (false, { st with appendCalls := st.appendCalls + 1 })

/-! ## `POST /webhook/amocrm` -/

/-- A `for (const x of xs)` loop whose body may throw: the first throw ends the loop and
carries the state reached. -/
def forOf {α : Type} (body : State → α → Except State State) :
    State → List α → Except State State
  | st, [] => .ok st
  | st, x :: rest =>
      match body st x with
      | .ok st1 => forOf body st1 rest
      | .error st1 => .error st1

/-- Lines 104-116: the membership test and the conditional append for one candidate. -/
def processEmail (env : Env) (st : State) (email : String) : State :=
  let normalizedEmail := env.toLowerCase email
  if !setHas st.existingEmails normalizedEmail then
    let (success, st1) := addEmailToSheet env st email
    if success then
      { st1 with existingEmails := setAdd st1.existingEmails normalizedEmail,
                 addedCount := st1.addedCount + 1,
                 log := st1.log ++ [.appended email] }
    else
      { st1 with log := st1.log ++ [.appendFailed email] }
  else
    { st with log := st.log ++ [.skipped email] }

/-- Lines 100-117: the body of the innermost loop.  `value.value?.trim()` throws a
`TypeError` when `value` is `null`, is `undefined` when `value.value` is `undefined` or
`null`, and throws a `TypeError` when `value.value` is any other value that is not a
string: it has no `trim` method. -/
def processValue (env : Env) (st : State) (value : Json) : Except State State :=
  match getProp value "value" with
  | none => .error st
  | some none => .ok st
  | some (some .null) => .ok st
  | some (some (.str raw)) =>
      let email := trim raw
      if truthy email && includes email "@" then .ok (processEmail env st email)
      else .ok st
  | some (some _) => .error st

/-- Lines 99-118: the loop body run over the items `for (const value of ...)` yields. -/
def forValues (env : Env) (st : State) (values : List Json) : Except State State :=
  forOf (processValue env) st values

/-- Lines 92-93: the filter callback `field.code === 'EMAIL' ||
field.name?.toLowerCase().includes('email')`; `none` stands for a `TypeError`: `field`
is `null`, or `field.name` is present and not a string, so has no `toLowerCase`. -/
def isEmailField (toLowerCase : String → String) (field : Json) : Option Bool :=
  match getProp field "code" with
  | none => none
  | some code =>
      if strictEquals code "EMAIL" then some true
      else
        match getProp field "name" with
        | none => none
        | some none => some false
        | some (some .null) => some false
        | some (some (.str name)) => some (includes (toLowerCase name) "email")
        | some (some _) => none

/-- Lines 91-94: `Array.prototype.filter` with the callback of lines 92-93. -/
def filterEmailFields (toLowerCase : String → String) : List Json → Option (List Json)
  | [] => some []
  | field :: rest =>
      match isEmailField toLowerCase field with
      | none => none
      | some keep =>
          match filterEmailFields toLowerCase rest with
          | none => none
          | some kept => some (if keep then field :: kept else kept)

/-- The comparison `x > 0`; `none` when it throws.  `undefined` becomes `NaN` and `null`
becomes 0, both not greater than 0; `true` becomes 1. -/
def gtZero (env : Env) : Option Json → Option Bool
  | none => some false
  | some .null => some false
  | some (.bool b) => some b
  | some (.num n) => some (decide (0 < n))
  | some x => env.coerceGtZero x

/-- The test `x.length > 0` of line 98 for a truthy `x`; `none` when it throws.  The
length of an array or a string is its size; a number and a Boolean have no `length`, and
`undefined > 0` is false; the `length` of an object is its own property of that name. -/
def lengthGtZero (env : Env) : Json → Option Bool
  | .null => none
  | .arr items => some (decide (0 < items.length))
  | .str s => some (decide (0 < s.length))
  | .obj members => gtZero env (member members "length")
  | _ => some false

/-- Lines 98-119: the body of the loop over the email fields. -/
def processField (env : Env) (st : State) (emailField : Json) : Except State State :=
  match getProp emailField "values" with
  | none => .error st
  | some none => .ok st
  | some (some values) =>
      if isTruthy (some values) then
        match lengthGtZero env values with
        | none => .error st
        | some false => .ok st
        | some true =>
            match iterate values with
            | none => .error st
            | some items => forValues env st items
      else .ok st

/-- Lines 97-120: `for (const emailField of emailFields)`. -/
def forFields (env : Env) (st : State) (emailFields : List Json) : Except State State :=
  forOf (processField env) st emailFields

/-- Lines 90-121: the body of the loop over the contacts.  A truthy `custom_fields` that
is not an array has no `filter` method: a `TypeError`. -/
def processContact (env : Env) (st : State) (contact : Json) : Except State State :=
  match getProp contact "custom_fields" with
  | none => .error st
  | some customFields =>
      if isTruthy customFields then
        match customFields with
        | some (.arr fields) =>
            match filterEmailFields env.toLowerCase fields with
            | none => .error st
            | some emailFields => forFields env st emailFields
        | _ => .error st
      else .ok st

/-- Lines 88-122: the loop body run over the items `for (const contact of contacts)`
yields. -/
def forContacts (env : Env) (st : State) (contacts : List Json) : Except State State :=
  forOf (processContact env) st contacts

/-- The state of the handler right after line 83. -/
def initialState (env : Env) (sheet : List Record) : State :=
  { sheet := sheet,
    existingEmails := getAllEmailsFromSheet env.toLowerCase (readResponse env sheet),
    addedCount := 0,
    appendCalls := 0,
    log := [] }

/-- What one run of the webhook handler leaves behind. -/
structure Outcome where
  state : State
  /-- whether the `catch` of line 126 was entered -/
  crashed : Bool
  deriving DecidableEq

/-- Line 81: `req.body.contacts || []`. -/
def contactsOrEmpty (bodyContacts : Option Json) : Json :=
  match bodyContacts with
  | none => .arr []
  | some contacts => if isTruthy (some contacts) then contacts else .arr []

/-- The `try` block of `app.post('/webhook/amocrm')` (lines 80-128).  A body of `null`
throws at line 81, before the store is read; a `contacts` that is truthy and not iterable
throws at line 88, after it. -/
def webhookAmocrm (env : Env) (sheet : List Record) (body : Json) : Outcome :=
  match getProp body "contacts" with
  | none =>
      { state := { sheet := sheet, existingEmails := [], addedCount := 0, appendCalls := 0,
                   log := [] },
        crashed := true }
  | some bodyContacts =>
      let contacts := contactsOrEmpty bodyContacts
      match iterate contacts with
      | none => { state := initialState env sheet, crashed := true }
      | some items =>
          match forContacts env (initialState env sheet) items with
          | .ok st => { state := st, crashed := false }
          | .error st => { state := st, crashed := true }

/-! ## `POST /add-test-email` -/

/-- The `status` field of the JSON answer. -/
inductive Status where
  | error
  | info
  | success
  deriving DecidableEq

/-- What one manual add leaves behind: the HTTP answer, the sheet, and the store calls
made (number of reads, emails passed to `addEmailToSheet`). -/
structure ManualResult where
  /-- HTTP status code and `status` field of the answer; `none` when a `TypeError` leaves
  the handler outside its `try` block and no answer is sent -/
  answer : Option (Nat × Status)
  sheet : List Record
  reads : Nat
  appends : List String
  deriving DecidableEq

/-- The call `email.includes('@')` of line 155 for a truthy `email`: the substring test of
a string, the membership test of an array; `none` is the `TypeError` of a value without
an `includes` method. -/
def includesAt : Json → Option Bool
  | .str s => some (includes s "@")
  | .arr items => some (items.any fun item => strictEquals (some item) "@")
  | _ => none

/-- The handler `app.post('/add-test-email')` (lines 152-193).  Line 153 destructures
`req.body` and line 155 tests `email`, both outside the `try` block; inside it the store
is read (line 163) before `email.toLowerCase()` is called (line 164), which throws for an
array and is caught at line 187. -/
def addTestEmail (env : Env) (sheet : List Record) (body : Json) : ManualResult :=
  match getProp body "email" with
  | none => { answer := none, sheet := sheet, reads := 0, appends := [] }
  | some none => { answer := some (400, .error), sheet := sheet, reads := 0, appends := [] }
  | some (some email) =>
      if !isTruthy (some email) then
        { answer := some (400, .error), sheet := sheet, reads := 0, appends := [] }
      else
        match includesAt email with
        | none => { answer := none, sheet := sheet, reads := 0, appends := [] }
        | some false =>
            { answer := some (400, .error), sheet := sheet, reads := 0, appends := [] }
        | some true =>
            let existingEmails := getAllEmailsFromSheet env.toLowerCase (readResponse env sheet)
            match email with
            | .str text =>
                let normalizedEmail := trim (env.toLowerCase text)
                if setHas existingEmails normalizedEmail then
                  { answer := some (200, .info), sheet := sheet, reads := 1, appends := [] }
                else
                  let st0 : State :=
                    { sheet := sheet, existingEmails := existingEmails, addedCount := 0,
                      appendCalls := 0, log := [] }
                  let (success, st1) := addEmailToSheet env st0 text
                  if success then
                    { answer := some (200, .success), sheet := st1.sheet, reads := 1,
                      appends := [text] }
                  else
                    { answer := some (500, .error), sheet := st1.sheet, reads := 1,
                      appends := [text] }
            | _ => { answer := some (500, .error), sheet := sheet, reads := 1, appends := [] }

/-! ## Notions used in the statements -/

/-- The normalized form of an email, `email.toLowerCase().trim()` (lines 40 and 164). -/
def normalize (toLowerCase : String → String) (email : String) : String :=
  trim (toLowerCase email)

/-- No two records of the sheet have emails with the same normalized form. -/
def Unique (toLowerCase : String → String) (sheet : List Record) : Prop :=
  (sheet.map fun r => normalize toLowerCase r.email).Nodup

instance (toLowerCase : String → String) (sheet : List Record) :
    Decidable (Unique toLowerCase sheet) := by
  unfold Unique; infer_instance

/-- Whether `x.key` is `undefined` or `null` for an `x` that is not `null` itself: the
field `key` of `x` is absent. -/
def isAbsent (x : Json) (key : String) : Bool :=
  match getProp x key with
  | some none => true
  | some (some .null) => true
  | _ => false

/-- The event `processEmail` logs for a candidate met in state `st`. -/
def eventOf (env : Env) (st : State) (email : String) : Event :=
  if setHas st.existingEmails (env.toLowerCase email) then .skipped email
  else if env.appendOk st.appendCalls then .appended email
  else .appendFailed email

/-- The line-104 block run on a sequence of candidates. -/
def runEmails (env : Env) (st : State) (emails : List String) : State :=
  emails.foldl (processEmail env) st

/-- The events `runEmails` logs, one per candidate. -/
def eventsOf (env : Env) : State → List String → List Event
  | _, [] => []
  | st, email :: rest => eventOf env st email :: eventsOf env (processEmail env st email) rest

/-- The candidate one item of `values` hands to the line-104 block, and whether reading
it throws. -/
def valueCandidate (value : Json) : List String × Bool :=
  match getProp value "value" with
  | none => ([], true)
  | some none => ([], false)
  | some (some .null) => ([], false)
  | some (some (.str raw)) =>
      (if truthy (trim raw) && includes (trim raw) "@" then [trim raw] else [], false)
  | some (some _) => ([], true)

/-- Candidates met by a loop up to its first throw, and whether it throws. -/
def seqCandidates {α : Type} (f : α → List String × Bool) : List α → List String × Bool
  | [] => ([], false)
  | x :: rest =>
      if (f x).2 then ((f x).1, true)
      else ((f x).1 ++ (seqCandidates f rest).1, (seqCandidates f rest).2)

/-- Candidates of one email field. -/
def fieldCandidates (env : Env) (emailField : Json) : List String × Bool :=
  match getProp emailField "values" with
  | none => ([], true)
  | some none => ([], false)
  | some (some values) =>
      if isTruthy (some values) then
        match lengthGtZero env values with
        | none => ([], true)
        | some false => ([], false)
        | some true =>
            match iterate values with
            | none => ([], true)
            | some items => seqCandidates valueCandidate items
      else ([], false)

/-- Candidates of one contact. -/
def contactCandidates (env : Env) (contact : Json) : List String × Bool :=
  match getProp contact "custom_fields" with
  | none => ([], true)
  | some customFields =>
      if isTruthy customFields then
        match customFields with
        | some (.arr fields) =>
            match filterEmailFields env.toLowerCase fields with
            | none => ([], true)
            | some emailFields => seqCandidates (fieldCandidates env) emailFields
        | _ => ([], true)
      else ([], false)

/-- Candidates of a whole batch, in the order the loops meet them, and whether the
handler throws. -/
def considered (env : Env) (body : Json) : List String × Bool :=
  match getProp body "contacts" with
  | none => ([], true)
  | some bodyContacts =>
      match iterate (contactsOrEmpty bodyContacts) with
      | none => ([], true)
      | some items => seqCandidates (contactCandidates env) items

/-! ## The Email Extractor as the specification words it (section 4.2) -/

/-- Specification, section 3: an attribute of a Contact, CustomField or FieldValue, which
may be absent. -/
def attr (x : Json) (key : String) : Option Json :=
  match x with
  | .obj members => member members key
  | _ => none

/-- Specification, section 3: an ordered sequence held by an attribute; an attribute that
is absent or holds no sequence gives the empty one. -/
def seqOf : Option Json → List Json
  | some (.arr items) => items
  | _ => []

/-- Specification, section 4.2: a field is email-bearing if its code equals `EMAIL` or
its display name, lowercased, contains `email`. -/
def specEmailBearing (toLowerCase : String → String) (field : Json) : Bool :=
  strictEquals (attr field "code") "EMAIL" ||
  (match attr field "name" with
   | some (.str name) => includes (toLowerCase name) "email"
   | _ => false)

/-- Specification, section 4.2: for a value with a non-absent raw string, trim it; if the
trimmed string contains `@`, emit it. -/
def specValueEmail (value : Json) : Option String :=
  match attr value "value" with
  | some (.str raw) => if includes (trim raw) "@" then some (trim raw) else none
  | _ => none

/-- Specification, section 4.2: the Candidate Emails of one Contact, in field order then
value order, duplicates kept. -/
def specExtractEmails (toLowerCase : String → String) (contact : Json) : List String :=
  ((seqOf (attr contact "custom_fields")).filter (specEmailBearing toLowerCase)).flatMap
    fun field => (seqOf (attr field "values")).filterMap specValueEmail

/-- Specification, section 4.4, step 2: the Candidate Emails of a batch, contact by
contact. -/
def specBatchEmails (toLowerCase : String → String) (body : Json) : List String :=
  (seqOf (attr body "contacts")).flatMap (specExtractEmails toLowerCase)

/-! ## Test fixtures -/

/-- An environment in which every store call settles. -/
def envOk : Env :=
  { toLowerCase := asciiLower, coerceGtZero := fun _ => some false, readOk := true,
    appendOk := fun _ => true, dateAt := fun _ => "01.01.2024" }

/-- An environment in which the read is rejected and every append settles. -/
def envReadFails : Env :=
  { toLowerCase := asciiLower, coerceGtZero := fun _ => some false, readOk := false,
    appendOk := fun _ => true, dateAt := fun _ => "02.01.2024" }

/-- An environment in which the read settles and every append is rejected. -/
def envAppendFails : Env :=
  { toLowerCase := asciiLower, coerceGtZero := fun _ => some false, readOk := true,
    appendOk := fun _ => false, dateAt := fun _ => "01.01.2024" }

/-- The object `{ value: raw }`. -/
def rawValue (raw : String) : Json :=
  .obj [("value", .str raw)]

/-- A custom field with the given code, name and values, a missing code or name left
out. -/
def customField (code name : Option String) (values : List Json) : Json :=
  .obj ((code.map fun c => ("code", Json.str c)).toList ++
        (name.map fun n => ("name", Json.str n)).toList ++ [("values", .arr values)])

/-- The contact `{ custom_fields: [...] }`. -/
def contactWith (fields : List Json) : Json :=
  .obj [("custom_fields", .arr fields)]

/-- A contact with one custom field of code `EMAIL` holding one string value. -/
def emailContact (raw : String) : Json :=
  .obj [("custom_fields", .arr [customField (some "EMAIL") none [rawValue raw]])]

/-- The body `{ contacts: [...] }`. -/
def batch (contacts : List Json) : Json :=
  .obj [("contacts", .arr contacts)]

/-- The body `{ email: ... }` of a manual add. -/
def emailBody (email : Json) : Json :=
  .obj [("email", email)]

/-- The sheet of scenario 1. -/
def aliceSheet : List Record :=
  [⟨"alice@x.com", "01.01.2024"⟩]

/-- The batch of scenario 1. -/
def aliceBatch : Json :=
  batch [emailContact "ALICE@X.com"]

/-- The batch of scenario 2. -/
def bobBatch : Json :=
  batch [emailContact "bob@x.com", emailContact "bob@x.com "]

/-- A contact with a field of code `EMAIL`, a field named `Work Email`, a field named
`Phone` without code whose value is a number, an `EMAIL` field without `values`, and
values that are empty, missing or without `@`. -/
def mixedContact : Json :=
  .obj [("custom_fields", .arr
    [ customField (some "EMAIL") none
        [rawValue " a@x.com ", rawValue "", .obj [], rawValue "no-at"],
      customField none (some "Work Email") [rawValue "B@x.com"],
      customField none (some "Phone") [rawValue "c@x.com", .obj [("value", .num 5)]],
      .obj [("code", .str "EMAIL")] ])]

/-- A batch holding the candidate of scenario 3 twice. -/
def carolBatch : Json :=
  batch [emailContact "carol@x.com", emailContact "Carol@X.com"]

/-- A contact whose `EMAIL` field holds a number before a string. -/
def numberFirstContact : Json :=
  .obj [("custom_fields", .arr
    [customField (some "EMAIL") none [.obj [("value", .num 5)], rawValue "erin@x.com"]])]

/-- A batch whose first contact holds a number where a raw string is expected. -/
def numberBatch : Json :=
  batch [ .obj [("custom_fields", .arr
            [customField (some "EMAIL") none [.obj [("value", .num 5)]]])],
          emailContact "dave@x.com" ]

/-! ## Strings: lemmas -/

theorem isWhiteSpace_toLower (c : Char) : isWhiteSpace c.toLower = isWhiteSpace c := by
  by_cases h : c.toNat ≥ 65 ∧ c.toNat ≤ 90
  · obtain ⟨h1, h2⟩ := h
    have hc : c = Char.ofNat c.toNat := (Char.ofNat_toNat c).symm
    generalize c.toNat = n at h1 h2 hc
    subst hc
    interval_cases n <;> decide
  · have : c.toLower = c := by
      unfold Char.toLower
      simp only [h, if_false]
    rw [this]

theorem toLower_eq_at (c : Char) : c.toLower = '@' ↔ c = '@' := by
  by_cases h : c.toNat ≥ 65 ∧ c.toNat ≤ 90
  · obtain ⟨h1, h2⟩ := h
    have hc : c = Char.ofNat c.toNat := (Char.ofNat_toNat c).symm
    generalize c.toNat = n at h1 h2 hc
    subst hc
    interval_cases n <;> decide
  · have : c.toLower = c := by
      unfold Char.toLower
      simp only [h, if_false]
    rw [this]

theorem dropWhile_map_toLower (l : List Char) :
    (l.map Char.toLower).dropWhile isWhiteSpace = (l.dropWhile isWhiteSpace).map Char.toLower := by
  induction l with
  | nil => rfl
  | cons c cs ih =>
      by_cases h : isWhiteSpace c = true
      · have h2 : isWhiteSpace c.toLower = true := by rw [isWhiteSpace_toLower]; exact h
        rw [List.map_cons, List.dropWhile_cons_of_pos h2, List.dropWhile_cons_of_pos h, ih]
      · have h2 : ¬ isWhiteSpace c.toLower = true := by rw [isWhiteSpace_toLower]; exact h
        rw [List.map_cons, List.dropWhile_cons_of_neg h2, List.dropWhile_cons_of_neg h,
          List.map_cons]

theorem dropTrailing_map_toLower (l : List Char) :
    dropTrailing (l.map Char.toLower) = (dropTrailing l).map Char.toLower := by
  unfold dropTrailing
  rw [← List.map_reverse, dropWhile_map_toLower, List.map_reverse]

/-- Trimming and `asciiLower` commute. -/
theorem asciiLower_trim (s : String) : trim (asciiLower s) = asciiLower (trim s) := by
  unfold trim asciiLower
  simp only [dropWhile_map_toLower, dropTrailing_map_toLower]

theorem dropWhile_snoc_neg (l : List Char) (a : Char) (h : ¬ isWhiteSpace a = true) :
    (l ++ [a]).dropWhile isWhiteSpace = l.dropWhile isWhiteSpace ++ [a] := by
  induction l with
  | nil => simp [List.dropWhile_cons, h]
  | cons c cs ih =>
      by_cases hc : isWhiteSpace c = true
      · rw [List.cons_append, List.dropWhile_cons_of_pos hc, List.dropWhile_cons_of_pos hc, ih]
      · rw [List.cons_append, List.dropWhile_cons_of_neg hc, List.dropWhile_cons_of_neg hc,
          List.cons_append]

theorem dropTrailing_cons_neg (a : Char) (l : List Char) (h : ¬ isWhiteSpace a = true) :
    dropTrailing (a :: l) = a :: dropTrailing l := by
  unfold dropTrailing
  rw [List.reverse_cons, dropWhile_snoc_neg _ _ h, List.reverse_append]
  rfl

theorem dropWhile_dropTrailing_dropWhile (l : List Char) :
    (dropTrailing (l.dropWhile isWhiteSpace)).dropWhile isWhiteSpace
      = dropTrailing (l.dropWhile isWhiteSpace) := by
  induction l with
  | nil => rfl
  | cons c cs ih =>
      by_cases hc : isWhiteSpace c = true
      · rw [List.dropWhile_cons_of_pos hc, ih]
      · rw [List.dropWhile_cons_of_neg hc, dropTrailing_cons_neg _ _ hc,
          List.dropWhile_cons_of_neg hc]

theorem dropTrailing_idem (l : List Char) : dropTrailing (dropTrailing l) = dropTrailing l := by
  unfold dropTrailing
  rw [List.reverse_reverse, List.dropWhile_idempotent]

/-- Trimming is idempotent. -/
theorem trim_trim (s : String) : trim (trim s) = trim s := by
  unfold trim
  simp only [dropWhile_dropTrailing_dropWhile, dropTrailing_idem]

theorem includesList_at (l : List Char) : includesList ['@'] l = true ↔ '@' ∈ l := by
  induction l with
  | nil => simp [includesList]
  | cons c cs ih =>
      simp only [includesList, Bool.or_eq_true, ih, List.mem_cons, List.isPrefixOf,
        Bool.and_true, beq_iff_eq]

theorem includes_at (s : String) : includes s "@" = true ↔ '@' ∈ s.data := by
  unfold includes
  exact includesList_at s.data

theorem mem_dropWhile_at (l : List Char) : '@' ∈ l.dropWhile isWhiteSpace ↔ '@' ∈ l := by
  induction l with
  | nil => simp
  | cons c cs ih =>
      by_cases hc : isWhiteSpace c = true
      · have hne : ¬ '@' = c := by
          intro h; subst h; revert hc; decide
        rw [List.dropWhile_cons_of_pos hc, ih, List.mem_cons]
        simp only [hne, false_or]
      · rw [List.dropWhile_cons_of_neg hc]

theorem mem_dropTrailing_at (l : List Char) : '@' ∈ dropTrailing l ↔ '@' ∈ l := by
  unfold dropTrailing
  rw [List.mem_reverse, mem_dropWhile_at, List.mem_reverse]

/-- Trimming keeps and creates no `@`. -/
theorem includes_at_trim (s : String) : includes (trim s) "@" = includes s "@" := by
  rw [Bool.eq_iff_iff, includes_at, includes_at]
  unfold trim
  simp only [mem_dropTrailing_at, mem_dropWhile_at]

/-- The map `asciiLower` keeps and creates no `@`. -/
theorem asciiLower_at (s : String) : includes (asciiLower s) "@" = includes s "@" := by
  rw [Bool.eq_iff_iff, includes_at, includes_at]
  unfold asciiLower
  simp only [List.mem_map]
  constructor
  · rintro ⟨c, hc, h⟩
    rw [(toLower_eq_at c).1 h] at hc
    exact hc
  · intro h
    exact ⟨'@', h, by decide⟩

/-- The case map of the examples satisfies the two laws. -/
theorem asciiLower_lawful : LawfulLower asciiLower :=
  ⟨asciiLower_trim, asciiLower_at⟩

theorem includes_at_normalize (toLowerCase : String → String)
    (hlower : LawfulLower toLowerCase) (s : String) :
    includes (normalize toLowerCase s) "@" = includes s "@" := by
  unfold normalize
  rw [includes_at_trim, hlower.at_iff]

/-- A string holding `@` is truthy. -/
theorem truthy_of_includes_at (s : String) (h : includes s "@" = true) : truthy s = true := by
  rw [includes_at] at h
  unfold truthy
  cases hs : s.data with
  | nil => rw [hs] at h; simp at h
  | cons c cs => rfl

/-- The normalized form of a raw value is the lowercased trimmed value. -/
theorem normalize_eq (toLowerCase : String → String) (hlower : LawfulLower toLowerCase)
    (s : String) : normalize toLowerCase s = toLowerCase (trim s) :=
  hlower.trim_comm s

/-! ## Sets: lemmas -/

theorem setHas_iff (s : List String) (x : String) : setHas s x = true ↔ x ∈ s := by
  unfold setHas
  simp

theorem setHas_setAdd (s : List String) (x y : String) :
    setHas (setAdd s y) x = true ↔ setHas s x = true ∨ x = y := by
  unfold setAdd
  by_cases h : setHas s y = true
  · rw [if_pos h]
    constructor
    · exact Or.inl
    · rintro (h1 | h1)
      · exact h1
      · rw [h1]; exact h
  · rw [if_neg h, setHas_iff, setHas_iff, List.mem_append, List.mem_singleton]

theorem setHas_foldl (l s : List String) (x : String) :
    setHas (l.foldl setAdd s) x = true ↔ setHas s x = true ∨ x ∈ l := by
  induction l generalizing s with
  | nil => simp
  | cons y ys ih =>
      rw [List.foldl_cons, ih, setHas_setAdd, List.mem_cons, or_assoc]

theorem setHas_newSet (l : List String) (x : String) : setHas (newSet l) x = true ↔ x ∈ l := by
  unfold newSet
  rw [setHas_foldl]
  simp [setHas]

/-! ## One candidate: the three branches of lines 107-116 -/

theorem processEmail_skipped (env : Env) (st : State) (email : String)
    (h : setHas st.existingEmails (env.toLowerCase email) = true) :
    processEmail env st email = { st with log := st.log ++ [.skipped email] } := by
  simp [processEmail, h]

theorem processEmail_appended (env : Env) (st : State) (email : String)
    (h : setHas st.existingEmails (env.toLowerCase email) = false)
    (hok : env.appendOk st.appendCalls = true) :
    processEmail env st email =
      { sheet := st.sheet ++ [⟨email, env.dateAt st.appendCalls⟩],
        existingEmails := setAdd st.existingEmails (env.toLowerCase email),
        addedCount := st.addedCount + 1,
        appendCalls := st.appendCalls + 1,
        log := st.log ++ [.appended email] } := by
  simp [processEmail, addEmailToSheet, h, hok]

theorem processEmail_failed (env : Env) (st : State) (email : String)
    (h : setHas st.existingEmails (env.toLowerCase email) = false)
    (hok : env.appendOk st.appendCalls = false) :
    processEmail env st email =
      { st with appendCalls := st.appendCalls + 1,
                log := st.log ++ [.appendFailed email] } := by
  simp [processEmail, addEmailToSheet, h, hok]

theorem eventOf_email (env : Env) (st : State) (email : String) :
    (eventOf env st email).email = email := by
  unfold eventOf
  split
  · rfl
  · split <;> rfl

theorem eventsOf_map_email (env : Env) (st : State) (emails : List String) :
    (eventsOf env st emails).map Event.email = emails := by
  induction emails generalizing st with
  | nil => rfl
  | cons e es ih => simp [eventsOf, eventOf_email, ih]

/-- The three branches, as one case split. -/
theorem processEmail_cases (env : Env) (st : State) (email : String) :
    (setHas st.existingEmails (env.toLowerCase email) = true ∧
      eventOf env st email = .skipped email ∧
      processEmail env st email = { st with log := st.log ++ [.skipped email] }) ∨
    (setHas st.existingEmails (env.toLowerCase email) = false ∧
      env.appendOk st.appendCalls = true ∧
      eventOf env st email = .appended email ∧
      processEmail env st email =
        { sheet := st.sheet ++ [⟨email, env.dateAt st.appendCalls⟩],
          existingEmails := setAdd st.existingEmails (env.toLowerCase email),
          addedCount := st.addedCount + 1,
          appendCalls := st.appendCalls + 1,
          log := st.log ++ [.appended email] }) ∨
    (setHas st.existingEmails (env.toLowerCase email) = false ∧
      env.appendOk st.appendCalls = false ∧
      eventOf env st email = .appendFailed email ∧
      processEmail env st email =
        { st with appendCalls := st.appendCalls + 1,
                  log := st.log ++ [.appendFailed email] }) := by
  cases h : setHas st.existingEmails (env.toLowerCase email) with
  | true =>
      exact Or.inl ⟨rfl, by simp [eventOf, h], processEmail_skipped env st email h⟩
  | false =>
      cases hok : env.appendOk st.appendCalls with
      | true =>
          exact Or.inr (Or.inl ⟨rfl, rfl, by simp [eventOf, h, hok],
            processEmail_appended env st email h hok⟩)
      | false =>
          exact Or.inr (Or.inr ⟨rfl, rfl, by simp [eventOf, h, hok],
            processEmail_failed env st email h hok⟩)

/-! ## The loops as a fold over the candidates -/

theorem runEmails_cons (env : Env) (st : State) (e : String) (es : List String) :
    runEmails env st (e :: es) = runEmails env (processEmail env st e) es := rfl

theorem runEmails_append (env : Env) (st : State) (xs ys : List String) :
    runEmails env st (xs ++ ys) = runEmails env (runEmails env st xs) ys := by
  unfold runEmails
  rw [List.foldl_append]

theorem eventsOf_append (env : Env) (st : State) (xs ys : List String) :
    eventsOf env st (xs ++ ys) = eventsOf env st xs ++ eventsOf env (runEmails env st xs) ys := by
  induction xs generalizing st with
  | nil => rfl
  | cons e es ih => simp [eventsOf, runEmails_cons, ih]

theorem forOf_eq {α : Type} (env : Env) (body : State → α → Except State State)
    (f : α → List String × Bool)
    (h : ∀ st x, body st x =
      if (f x).2 then .error (runEmails env st (f x).1) else .ok (runEmails env st (f x).1))
    (st : State) (l : List α) :
    forOf body st l =
      if (seqCandidates f l).2 then .error (runEmails env st (seqCandidates f l).1)
      else .ok (runEmails env st (seqCandidates f l).1) := by
  induction l generalizing st with
  | nil => rfl
  | cons x rest ih =>
      unfold forOf
      rw [h]
      cases hx : (f x).2 with
      | true => simp [seqCandidates, hx]
      | false =>
          simp only [Bool.false_eq_true, if_false, ih, seqCandidates, hx, runEmails_append]

theorem processValue_eq (env : Env) (st : State) (value : Json) :
    processValue env st value =
      if (valueCandidate value).2 then .error (runEmails env st (valueCandidate value).1)
      else .ok (runEmails env st (valueCandidate value).1) := by
  unfold processValue valueCandidate
  cases getProp value "value" with
  | none => rfl
  | some v =>
      cases v with
      | none => rfl
      | some j =>
          cases j with
          | str raw =>
              by_cases hc : (truthy (trim raw) && includes (trim raw) "@") = true
              · simp [hc, runEmails]
              · simp [hc, runEmails]
          | null => rfl
          | bool b => rfl
          | num n => rfl
          | arr items => rfl
          | obj members => rfl

theorem forValues_eq (env : Env) (st : State) (values : List Json) :
    forValues env st values =
      if (seqCandidates valueCandidate values).2
      then .error (runEmails env st (seqCandidates valueCandidate values).1)
      else .ok (runEmails env st (seqCandidates valueCandidate values).1) :=
  forOf_eq env _ _ (processValue_eq env) st values

theorem processField_eq (env : Env) (st : State) (field : Json) :
    processField env st field =
      if (fieldCandidates env field).2
      then .error (runEmails env st (fieldCandidates env field).1)
      else .ok (runEmails env st (fieldCandidates env field).1) := by
  unfold processField fieldCandidates
  cases getProp field "values" with
  | none => rfl
  | some v =>
      cases v with
      | none => rfl
      | some values =>
          simp only
          cases isTruthy (some values) with
          | false => rfl
          | true =>
              simp only [if_true]
              cases lengthGtZero env values with
              | none => rfl
              | some b =>
                  cases b with
                  | false => rfl
                  | true =>
                      simp only
                      cases iterate values with
                      | none => rfl
                      | some items => exact forValues_eq env st items

theorem forFields_eq (env : Env) (st : State) (fields : List Json) :
    forFields env st fields =
      if (seqCandidates (fieldCandidates env) fields).2
      then .error (runEmails env st (seqCandidates (fieldCandidates env) fields).1)
      else .ok (runEmails env st (seqCandidates (fieldCandidates env) fields).1) :=
  forOf_eq env _ _ (processField_eq env) st fields

theorem processContact_eq (env : Env) (st : State) (contact : Json) :
    processContact env st contact =
      if (contactCandidates env contact).2
      then .error (runEmails env st (contactCandidates env contact).1)
      else .ok (runEmails env st (contactCandidates env contact).1) := by
  unfold processContact contactCandidates
  cases getProp contact "custom_fields" with
  | none => rfl
  | some customFields =>
      simp only
      cases isTruthy customFields with
      | false => rfl
      | true =>
          simp only [if_true]
          cases customFields with
          | none => rfl
          | some j =>
              cases j with
              | arr fields =>
                  simp only
                  cases filterEmailFields env.toLowerCase fields with
                  | none => rfl
                  | some kept => exact forFields_eq env st kept
              | null => rfl
              | bool b => rfl
              | num n => rfl
              | str s => rfl
              | obj members => rfl

theorem forContacts_eq (env : Env) (st : State) (contacts : List Json) :
    forContacts env st contacts =
      if (seqCandidates (contactCandidates env) contacts).2
      then .error (runEmails env st (seqCandidates (contactCandidates env) contacts).1)
      else .ok (runEmails env st (seqCandidates (contactCandidates env) contacts).1) :=
  forOf_eq env _ _ (processContact_eq env) st contacts

/-- The webhook handler is the line-104 block folded over the candidates met before the
first throw. -/
theorem webhookAmocrm_eq (env : Env) (sheet : List Record) (body : Json)
    (h : getProp body "contacts" ≠ none) :
    webhookAmocrm env sheet body =
      { state := runEmails env (initialState env sheet) (considered env body).1,
        crashed := (considered env body).2 } := by
  unfold webhookAmocrm considered
  cases hb : getProp body "contacts" with
  | none => exact absurd hb h
  | some bodyContacts =>
      simp only
      cases iterate (contactsOrEmpty bodyContacts) with
      | none => rfl
      | some items =>
          simp only [forContacts_eq]
          cases (seqCandidates (contactCandidates env) items).2 <;> rfl

/-- A body of `null`: the handler throws before the store is read. -/
theorem webhookAmocrm_null (env : Env) (sheet : List Record) (body : Json)
    (h : getProp body "contacts" = none) :
    webhookAmocrm env sheet body =
      { state := { sheet := sheet, existingEmails := [], addedCount := 0, appendCalls := 0,
                   log := [] },
        crashed := true } ∧ considered env body = ([], true) := by
  unfold webhookAmocrm considered
  rw [h]
  exact ⟨rfl, rfl⟩

/-- The log of a run is the old log followed by one event per candidate. -/
theorem runEmails_log (env : Env) (st : State) (emails : List String) :
    (runEmails env st emails).log = st.log ++ eventsOf env st emails := by
  induction emails generalizing st with
  | nil => simp [runEmails, eventsOf]
  | cons e es ih =>
      rw [runEmails_cons, ih, eventsOf]
      rcases processEmail_cases env st e with
        ⟨_, hev, hst⟩ | ⟨_, _, hev, hst⟩ | ⟨_, _, hev, hst⟩ <;>
        simp [hev, hst]

theorem webhookAmocrm_crashed (env : Env) (sheet : List Record) (body : Json) :
    (webhookAmocrm env sheet body).crashed = (considered env body).2 := by
  cases h : getProp body "contacts" with
  | none =>
      obtain ⟨h1, h2⟩ := webhookAmocrm_null env sheet body h
      rw [h1, h2]
  | some c => rw [webhookAmocrm_eq env sheet body (by rw [h]; simp)]

theorem webhookAmocrm_sheet (env : Env) (sheet : List Record) (body : Json) :
    (webhookAmocrm env sheet body).state.sheet
      = (runEmails env (initialState env sheet) (considered env body).1).sheet := by
  cases h : getProp body "contacts" with
  | none =>
      obtain ⟨h1, h2⟩ := webhookAmocrm_null env sheet body h
      rw [h1, h2]
      rfl
  | some c => rw [webhookAmocrm_eq env sheet body (by rw [h]; simp)]

theorem webhookAmocrm_addedCount (env : Env) (sheet : List Record) (body : Json) :
    (webhookAmocrm env sheet body).state.addedCount
      = (runEmails env (initialState env sheet) (considered env body).1).addedCount := by
  cases h : getProp body "contacts" with
  | none =>
      obtain ⟨h1, h2⟩ := webhookAmocrm_null env sheet body h
      rw [h1, h2]
      rfl
  | some c => rw [webhookAmocrm_eq env sheet body (by rw [h]; simp)]

theorem webhookAmocrm_appendCalls (env : Env) (sheet : List Record) (body : Json) :
    (webhookAmocrm env sheet body).state.appendCalls
      = (runEmails env (initialState env sheet) (considered env body).1).appendCalls := by
  cases h : getProp body "contacts" with
  | none =>
      obtain ⟨h1, h2⟩ := webhookAmocrm_null env sheet body h
      rw [h1, h2]
      rfl
  | some c => rw [webhookAmocrm_eq env sheet body (by rw [h]; simp)]

theorem webhookAmocrm_log (env : Env) (sheet : List Record) (body : Json) :
    (webhookAmocrm env sheet body).state.log
      = eventsOf env (initialState env sheet) (considered env body).1 := by
  cases h : getProp body "contacts" with
  | none =>
      obtain ⟨h1, h2⟩ := webhookAmocrm_null env sheet body h
      rw [h1, h2]
      rfl
  | some c =>
      rw [webhookAmocrm_eq env sheet body (by rw [h]; simp), runEmails_log]
      rfl

/-! ## The candidates against the specification's extractor -/

theorem seqCandidates_forall {α : Type} (P : String → Prop) (f : α → List String × Bool)
    (l : List α) (h : ∀ x ∈ l, ∀ c ∈ (f x).1, P c) :
    ∀ c ∈ (seqCandidates f l).1, P c := by
  induction l with
  | nil => intro c hc; simp [seqCandidates] at hc
  | cons x rest ih =>
      intro c hc
      unfold seqCandidates at hc
      cases hx : (f x).2 with
      | true =>
          simp only [hx, if_true] at hc
          exact h x (List.mem_cons_self _ _) c hc
      | false =>
          simp only [hx, Bool.false_eq_true, if_false, List.mem_append] at hc
          rcases hc with hc | hc
          · exact h x (List.mem_cons_self _ _) c hc
          · exact ih (fun y hy => h y (List.mem_cons_of_mem _ hy)) c hc

theorem seqCandidates_spec {α : Type} (f : α → List String × Bool) (g : α → List String)
    (l : List α) (hpre : ∀ x ∈ l, (f x).1 <+: g x)
    (heq : ∀ x ∈ l, (f x).2 = false → (f x).1 = g x) :
    (seqCandidates f l).1 <+: l.flatMap g ∧
      ((seqCandidates f l).2 = false → (seqCandidates f l).1 = l.flatMap g) := by
  induction l with
  | nil => exact ⟨List.prefix_refl _, fun _ => rfl⟩
  | cons x rest ih =>
      have ih1 := ih (fun y hy => hpre y (List.mem_cons_of_mem _ hy))
        (fun y hy => heq y (List.mem_cons_of_mem _ hy))
      unfold seqCandidates
      rw [List.flatMap_cons]
      cases hx : (f x).2 with
      | true =>
          simp only [if_true]
          exact ⟨(hpre x (List.mem_cons_self _ _)).trans (List.prefix_append _ _),
            fun h => by cases h⟩
      | false =>
          simp only [Bool.false_eq_true, if_false]
          rw [heq x (List.mem_cons_self _ _) hx]
          exact ⟨(List.prefix_append_right_inj _).2 ih1.1, fun h => by rw [ih1.2 h]⟩

theorem flatMap_toList {α β : Type} (f : α → Option β) (l : List α) :
    l.flatMap (fun x => (f x).toList) = l.filterMap f := by
  induction l with
  | nil => rfl
  | cons x rest ih =>
      rw [List.flatMap_cons, ih, List.filterMap_cons]
      cases f x <;> rfl

theorem seqCandidates_nil {α : Type} (f : α → List String × Bool) (l : List α)
    (h : ∀ x ∈ l, f x = ([], false)) : seqCandidates f l = ([], false) := by
  induction l with
  | nil => rfl
  | cons x rest ih =>
      unfold seqCandidates
      rw [h x (List.mem_cons_self _ _), ih (fun y hy => h y (List.mem_cons_of_mem _ hy))]
      rfl

/-- A property read that does not throw yields the attribute. -/
theorem getProp_some (x : Json) (key : String) (v : Option Json)
    (h : getProp x key = some v) : v = attr x key := by
  cases x <;> simp [getProp, attr] at h ⊢ <;> exact h.symm

theorem getProp_none (x : Json) (key : String) (h : getProp x key = none) :
    attr x key = none := by
  cases x <;> simp [getProp, attr] at h ⊢

theorem valueCandidate_fst (value : Json) :
    (valueCandidate value).1 = (specValueEmail value).toList := by
  unfold valueCandidate specValueEmail
  cases hv : getProp value "value" with
  | none => rw [getProp_none _ _ hv]; rfl
  | some v =>
      rw [← getProp_some _ _ _ hv]
      cases v with
      | none => rfl
      | some j =>
          cases j with
          | str raw =>
              cases h : includes (trim raw) "@" with
              | true => simp [h, truthy_of_includes_at _ h]
              | false => simp [h]
          | null => rfl
          | bool b => rfl
          | num n => rfl
          | arr items => rfl
          | obj members => rfl

theorem valueCandidate_props (value : Json) :
    ∀ c ∈ (valueCandidate value).1, includes c "@" = true ∧ trim c = c := by
  intro c hc
  rw [valueCandidate_fst] at hc
  unfold specValueEmail at hc
  cases hv : attr value "value" with
  | none => rw [hv] at hc; simp at hc
  | some j =>
      rw [hv] at hc
      cases j with
      | str raw =>
          by_cases h : includes (trim raw) "@" = true
          · simp only [h, if_true, Option.toList_some, List.mem_singleton] at hc
            subst hc
            exact ⟨h, trim_trim raw⟩
          · simp [h] at hc
      | null => simp at hc
      | bool b => simp at hc
      | num n => simp at hc
      | arr items => simp at hc
      | obj members => simp at hc

/-- The characters of a string hold no candidate and throw nothing. -/
theorem valueCandidate_chars (s : String) :
    seqCandidates valueCandidate (s.data.map fun c => Json.str (String.singleton c))
      = ([], false) := by
  apply seqCandidates_nil
  intro x hx
  rw [List.mem_map] at hx
  obtain ⟨c, _, rfl⟩ := hx
  rfl

theorem fieldCandidates_spec (env : Env) (field : Json) :
    (fieldCandidates env field).1 <+: (seqOf (attr field "values")).filterMap specValueEmail ∧
      ((fieldCandidates env field).2 = false →
        (fieldCandidates env field).1
          = (seqOf (attr field "values")).filterMap specValueEmail) := by
  unfold fieldCandidates
  cases hv : getProp field "values" with
  | none => exact ⟨List.nil_prefix, fun h => by cases h⟩
  | some v =>
      rw [← getProp_some _ _ _ hv]
      cases v with
      | none => exact ⟨List.prefix_refl _, fun _ => rfl⟩
      | some values =>
          simp only
          cases values with
          | null => exact ⟨List.prefix_refl _, fun _ => rfl⟩
          | bool b => cases b <;> exact ⟨List.prefix_refl _, fun _ => rfl⟩
          | num n =>
              by_cases hn : isTruthy (some (Json.num n)) = true
              · simp only [hn, if_true, lengthGtZero, seqOf]
                exact ⟨List.prefix_refl _, fun _ => rfl⟩
              · simp only [hn, seqOf]
                exact ⟨List.prefix_refl _, fun _ => rfl⟩
          | str s =>
              by_cases hs : isTruthy (some (Json.str s)) = true
              · simp only [hs, if_true, lengthGtZero, seqOf, iterate]
                by_cases hl : 0 < s.length
                · simp only [hl, decide_True, valueCandidate_chars]
                  exact ⟨List.prefix_refl _, fun _ => rfl⟩
                · simp only [hl, decide_False]
                  exact ⟨List.prefix_refl _, fun _ => rfl⟩
              · simp only [hs, seqOf]
                exact ⟨List.prefix_refl _, fun _ => rfl⟩
          | obj members =>
              simp only [isTruthy, if_true, lengthGtZero, seqOf, iterate]
              cases gtZero env (member members "length") with
              | none => exact ⟨List.nil_prefix, fun h => by cases h⟩
              | some b =>
                  cases b with
                  | false => exact ⟨List.prefix_refl _, fun _ => rfl⟩
                  | true => exact ⟨List.nil_prefix, fun h => by cases h⟩
          | arr items =>
              simp only [isTruthy, if_true, lengthGtZero, seqOf, iterate]
              have h := seqCandidates_spec valueCandidate (fun v => (specValueEmail v).toList)
                items (fun v _ => (valueCandidate_fst v) ▸ List.prefix_refl _)
                (fun v _ _ => valueCandidate_fst v)
              rw [flatMap_toList] at h
              by_cases hl : 0 < items.length
              · simp only [hl, decide_True]
                exact h
              · simp only [hl, decide_False]
                have hnil : items = [] := by
                  cases items with
                  | nil => rfl
                  | cons x xs => simp at hl
                subst hnil
                exact ⟨List.prefix_refl _, fun _ => rfl⟩

theorem fieldCandidates_props (env : Env) (field : Json) :
    ∀ c ∈ (fieldCandidates env field).1, includes c "@" = true ∧ trim c = c := by
  intro c hc
  have hmem := (fieldCandidates_spec env field).1.subset hc
  rw [List.mem_filterMap] at hmem
  obtain ⟨v, _, hv⟩ := hmem
  apply valueCandidate_props v
  rw [valueCandidate_fst, hv]
  simp

theorem isEmailField_some (toLowerCase : String → String) (field : Json) (b : Bool)
    (h : isEmailField toLowerCase field = some b) :
    b = specEmailBearing toLowerCase field := by
  unfold isEmailField at h
  unfold specEmailBearing
  cases hc : getProp field "code" with
  | none => rw [hc] at h; simp at h
  | some code =>
      rw [hc] at h
      rw [← getProp_some _ _ _ hc]
      by_cases he : strictEquals code "EMAIL" = true
      · simp only [he, if_true, Option.some.injEq] at h
        simp [he, ← h]
      · simp only at h
        rw [if_neg he] at h
        cases hn : getProp field "name" with
        | none => rw [hn] at h; simp at h
        | some name =>
            rw [hn] at h
            rw [← getProp_some _ _ _ hn]
            cases name with
            | none =>
                simp only [Option.some.injEq] at h
                simp [he, ← h]
            | some j =>
                cases j with
                | str s =>
                    simp only [Option.some.injEq] at h
                    simp [he, ← h]
                | null =>
                    simp only [Option.some.injEq] at h
                    simp [he, ← h]
                | bool b => simp at h
                | num n => simp at h
                | arr items => simp at h
                | obj members => simp at h

theorem filterEmailFields_some (toLowerCase : String → String) (fields kept : List Json)
    (h : filterEmailFields toLowerCase fields = some kept) :
    kept = fields.filter (specEmailBearing toLowerCase) := by
  induction fields generalizing kept with
  | nil =>
      simp only [filterEmailFields, Option.some.injEq] at h
      simp [← h]
  | cons field rest ih =>
      unfold filterEmailFields at h
      cases hf : isEmailField toLowerCase field with
      | none => rw [hf] at h; simp at h
      | some keep =>
          rw [hf] at h
          cases hr : filterEmailFields toLowerCase rest with
          | none => rw [hr] at h; simp at h
          | some kept1 =>
              rw [hr] at h
              simp only [Option.some.injEq] at h
              have hk := isEmailField_some toLowerCase field keep hf
              have ih1 := ih kept1 hr
              rw [List.filter_cons, ← hk, ← h, ih1]

theorem contactCandidates_spec (env : Env) (contact : Json) :
    (contactCandidates env contact).1 <+: specExtractEmails env.toLowerCase contact ∧
      ((contactCandidates env contact).2 = false →
        (contactCandidates env contact).1 = specExtractEmails env.toLowerCase contact) := by
  unfold contactCandidates specExtractEmails
  cases hc : getProp contact "custom_fields" with
  | none => exact ⟨List.nil_prefix, fun h => by cases h⟩
  | some customFields =>
      rw [← getProp_some _ _ _ hc]
      cases customFields with
      | none => exact ⟨List.prefix_refl _, fun _ => rfl⟩
      | some j =>
          cases j with
          | arr fields =>
              simp only [isTruthy, if_true, seqOf]
              cases hf : filterEmailFields env.toLowerCase fields with
              | none => exact ⟨List.nil_prefix, fun h => by cases h⟩
              | some kept =>
                  rw [← filterEmailFields_some env.toLowerCase fields kept hf]
                  exact seqCandidates_spec (fieldCandidates env) _ kept
                    (fun f _ => (fieldCandidates_spec env f).1)
                    (fun f _ => (fieldCandidates_spec env f).2)
          | null => exact ⟨List.prefix_refl _, fun _ => rfl⟩
          | bool b =>
              cases b with
              | false => exact ⟨List.prefix_refl _, fun _ => rfl⟩
              | true => exact ⟨List.nil_prefix, fun h => by cases h⟩
          | num n =>
              by_cases hn : isTruthy (some (Json.num n)) = true
              · simp only [hn, if_true]
                exact ⟨List.nil_prefix, fun h => by cases h⟩
              · simp only [hn, seqOf]
                exact ⟨List.prefix_refl _, fun _ => rfl⟩
          | str s =>
              by_cases hs : isTruthy (some (Json.str s)) = true
              · simp only [hs, if_true]
                exact ⟨List.nil_prefix, fun h => by cases h⟩
              · simp only [hs, seqOf]
                exact ⟨List.prefix_refl _, fun _ => rfl⟩
          | obj members => exact ⟨List.nil_prefix, fun h => by cases h⟩

theorem contactCandidates_props (env : Env) (contact : Json) :
    ∀ c ∈ (contactCandidates env contact).1, includes c "@" = true ∧ trim c = c := by
  unfold contactCandidates
  cases getProp contact "custom_fields" with
  | none => intro c hc; simp at hc
  | some customFields =>
      simp only
      cases isTruthy customFields with
      | false => intro c hc; simp at hc
      | true =>
          simp only [if_true]
          cases customFields with
          | none => intro c hc; simp at hc
          | some j =>
              cases j with
              | arr fields =>
                  simp only
                  cases filterEmailFields env.toLowerCase fields with
                  | none => intro c hc; simp at hc
                  | some kept =>
                      simp only
                      apply seqCandidates_forall
                      intro field _
                      exact fieldCandidates_props env field
              | null => intro c hc; simp at hc
              | bool b => intro c hc; simp at hc
              | num n => intro c hc; simp at hc
              | str s => intro c hc; simp at hc
              | obj members => intro c hc; simp at hc

/-- The characters of a string are contacts without candidates. -/
theorem contactCandidates_chars (env : Env) (s : String) :
    seqCandidates (contactCandidates env) (s.data.map fun c => Json.str (String.singleton c))
      = ([], false) := by
  apply seqCandidates_nil
  intro x hx
  rw [List.mem_map] at hx
  obtain ⟨c, _, rfl⟩ := hx
  rfl

/-- The candidates the loops meet are a prefix of the specification's extraction, and all
of it when nothing throws. -/
theorem considered_spec (env : Env) (body : Json) :
    (considered env body).1 <+: specBatchEmails env.toLowerCase body ∧
      ((considered env body).2 = false →
        (considered env body).1 = specBatchEmails env.toLowerCase body) := by
  unfold considered specBatchEmails
  cases hb : getProp body "contacts" with
  | none => exact ⟨List.nil_prefix, fun h => by cases h⟩
  | some bodyContacts =>
      rw [← getProp_some _ _ _ hb]
      have harr : ∀ items : List Json,
          (seqCandidates (contactCandidates env) items).1
              <+: items.flatMap (specExtractEmails env.toLowerCase) ∧
            ((seqCandidates (contactCandidates env) items).2 = false →
              (seqCandidates (contactCandidates env) items).1
                = items.flatMap (specExtractEmails env.toLowerCase)) :=
        fun items => seqCandidates_spec (contactCandidates env) _ items
          (fun c _ => (contactCandidates_spec env c).1)
          (fun c _ => (contactCandidates_spec env c).2)
      cases bodyContacts with
      | none => exact harr []
      | some j =>
          cases j with
          | arr items => exact harr items
          | null => exact harr []
          | bool b =>
              cases b with
              | false => exact harr []
              | true => exact ⟨List.nil_prefix, fun h => by cases h⟩
          | num n =>
              by_cases hn : isTruthy (some (Json.num n)) = true
              · simp only [contactsOrEmpty, hn, if_true, iterate]
                exact ⟨List.nil_prefix, fun h => by cases h⟩
              · simp only [contactsOrEmpty, hn, iterate, seqOf]
                exact harr []
          | str s =>
              by_cases hs : isTruthy (some (Json.str s)) = true
              · simp only [contactsOrEmpty, hs, if_true, iterate, contactCandidates_chars, seqOf]
                exact ⟨List.prefix_refl _, fun _ => rfl⟩
              · simp only [contactsOrEmpty, hs, iterate, seqOf]
                exact harr []
          | obj members => exact ⟨List.nil_prefix, fun h => by cases h⟩

/-- Every candidate is trimmed and holds an `@`. -/
theorem considered_props (env : Env) (body : Json) :
    ∀ c ∈ (considered env body).1, includes c "@" = true ∧ trim c = c := by
  unfold considered
  cases getProp body "contacts" with
  | none => intro c hc; simp at hc
  | some bodyContacts =>
      simp only
      cases iterate (contactsOrEmpty bodyContacts) with
      | none => intro c hc; simp at hc
      | some items =>
          simp only
          apply seqCandidates_forall
          intro contact _
          exact contactCandidates_props env contact

/-! ## Facts about a run -/

theorem eventsOf_length (env : Env) (st : State) (emails : List String) :
    (eventsOf env st emails).length = emails.length := by
  rw [← List.length_map (eventsOf env st emails) Event.email, eventsOf_map_email]

/-- A split of the events is a split of the candidates. -/
theorem eventsOf_split (env : Env) (st : State) (emails : List String) (l1 l2 : List Event)
    (h : eventsOf env st emails = l1 ++ l2) :
    ∃ es1 es2, emails = es1 ++ es2 ∧ eventsOf env st es1 = l1 ∧
      eventsOf env (runEmails env st es1) es2 = l2 := by
  refine ⟨emails.take l1.length, emails.drop l1.length, (List.take_append_drop _ _).symm, ?_⟩
  have hlen : l1.length ≤ emails.length := by
    have := congrArg List.length h
    rw [eventsOf_length, List.length_append] at this
    omega
  have happ := eventsOf_append env st (emails.take l1.length) (emails.drop l1.length)
  rw [List.take_append_drop, h] at happ
  have hl : l1.length = (eventsOf env st (emails.take l1.length)).length := by
    rw [eventsOf_length, List.length_take]
    omega
  have := List.append_inj happ hl
  exact ⟨this.1.symm, this.2.symm⟩

theorem eventsOf_cons_eq (env : Env) (st : State) (emails : List String) (ev : Event)
    (l : List Event) (h : eventsOf env st emails = ev :: l) :
    ∃ e es, emails = e :: es ∧ eventOf env st e = ev ∧
      eventsOf env (processEmail env st e) es = l := by
  cases emails with
  | nil => simp [eventsOf] at h
  | cons e es =>
      simp only [eventsOf, List.cons.injEq] at h
      exact ⟨e, es, rfl, h.1, h.2⟩

/-- The snapshot only grows, and by the keys of the successful appends. -/
theorem runEmails_has (env : Env) (st : State) (emails : List String) (k : String) :
    setHas (runEmails env st emails).existingEmails k = true ↔
      setHas st.existingEmails k = true ∨
        ∃ e, Event.appended e ∈ eventsOf env st emails ∧ env.toLowerCase e = k := by
  induction emails generalizing st with
  | nil => simp [runEmails, eventsOf]
  | cons e es ih =>
      rw [runEmails_cons, ih, eventsOf]
      rcases processEmail_cases env st e with
        ⟨_, hev, hst⟩ | ⟨_, _, hev, hst⟩ | ⟨_, _, hev, hst⟩
      · rw [hev, hst]
        simp
      · rw [hev, hst]
        simp only [setHas_setAdd, List.mem_cons, Event.appended.injEq]
        constructor
        · rintro ((h | h) | ⟨e1, h1, h2⟩)
          · exact Or.inl h
          · exact Or.inr ⟨e, Or.inl rfl, h.symm⟩
          · exact Or.inr ⟨e1, Or.inr h1, h2⟩
        · rintro (h | ⟨e1, h1 | h1, h2⟩)
          · exact Or.inl (Or.inl h)
          · subst h1; exact Or.inl (Or.inr h2.symm)
          · exact Or.inr ⟨e1, h1, h2⟩
      · rw [hev, hst]
        simp

theorem runEmails_has_mono (env : Env) (st : State) (emails : List String) (k : String)
    (h : setHas st.existingEmails k = true) :
    setHas (runEmails env st emails).existingEmails k = true :=
  (runEmails_has env st emails k).2 (Or.inl h)

/-- A candidate whose key is in the snapshot is skipped. -/
theorem eventsOf_skipped (env : Env) (st : State) (emails : List String) :
    ∀ ev ∈ eventsOf env st emails,
      setHas st.existingEmails (env.toLowerCase ev.email) = true → ev = .skipped ev.email := by
  induction emails generalizing st with
  | nil => intro ev hev; simp [eventsOf] at hev
  | cons e es ih =>
      intro ev hev hk
      rw [eventsOf, List.mem_cons] at hev
      rcases hev with hev | hev
      · subst hev
        rw [eventOf_email] at hk ⊢
        simp [eventOf, hk]
      · apply ih _ ev hev
        have := runEmails_has_mono env st [e] _ hk
        exact this

theorem runEmails_addedCount (env : Env) (st : State) (emails : List String) :
    (runEmails env st emails).addedCount
      = st.addedCount + (eventsOf env st emails).countP Event.isAppended := by
  induction emails generalizing st with
  | nil => simp [runEmails, eventsOf]
  | cons e es ih =>
      rw [runEmails_cons, ih, eventsOf, List.countP_cons]
      rcases processEmail_cases env st e with
        ⟨_, hev, hst⟩ | ⟨_, _, hev, hst⟩ | ⟨_, _, hev, hst⟩ <;>
        (rw [hev, hst]; simp [Event.isAppended]; try omega)

theorem runEmails_appendCalls (env : Env) (st : State) (emails : List String) :
    (runEmails env st emails).appendCalls
      = st.appendCalls + (eventsOf env st emails).countP Event.isAppendCall := by
  induction emails generalizing st with
  | nil => simp [runEmails, eventsOf]
  | cons e es ih =>
      rw [runEmails_cons, ih, eventsOf, List.countP_cons]
      rcases processEmail_cases env st e with
        ⟨_, hev, hst⟩ | ⟨_, _, hev, hst⟩ | ⟨_, _, hev, hst⟩ <;>
        (rw [hev, hst]; simp [Event.isAppendCall]; try omega)

/-- The sheet only grows, by one row per successful append, in the order of the events. -/
theorem runEmails_sheet (env : Env) (st : State) (emails : List String) :
    ∃ rows, (runEmails env st emails).sheet = st.sheet ++ rows ∧
      rows.map Record.email
        = ((eventsOf env st emails).filter Event.isAppended).map Event.email := by
  induction emails generalizing st with
  | nil => exact ⟨[], by simp [runEmails], by simp [eventsOf]⟩
  | cons e es ih =>
      obtain ⟨rows, h1, h2⟩ := ih (processEmail env st e)
      rw [runEmails_cons, eventsOf, h1]
      rcases processEmail_cases env st e with
        ⟨_, hev, hst⟩ | ⟨_, _, hev, hst⟩ | ⟨_, _, hev, hst⟩
      · refine ⟨rows, by rw [hst], ?_⟩
        rw [h2, hev]
        simp [Event.isAppended]
      · refine ⟨⟨e, env.dateAt st.appendCalls⟩ :: rows, by rw [hst]; simp, ?_⟩
        rw [List.map_cons, h2, hev]
        simp [Event.isAppended, Event.email]
      · refine ⟨rows, by rw [hst], ?_⟩
        rw [h2, hev]
        simp [Event.isAppended]

/-- When every key is in the snapshot already, the run only logs. -/
theorem runEmails_all_present (env : Env) (st : State) (emails : List String)
    (h : ∀ e ∈ emails, setHas st.existingEmails (env.toLowerCase e) = true) :
    runEmails env st emails = { st with log := st.log ++ emails.map Event.skipped } := by
  induction emails generalizing st with
  | nil => simp [runEmails]
  | cons e es ih =>
      rw [runEmails_cons, processEmail_skipped env st e (h e (List.mem_cons_self _ _))]
      rw [ih]
      · simp
      · intro e1 he1
        exact h e1 (List.mem_cons_of_mem _ he1)

/-- The keys a successful read of the sheet puts into the snapshot. -/
theorem sheetKeys_iff (toLowerCase : String → String) (sheet : List Record) (k : String) :
    setHas (getAllEmailsFromSheet toLowerCase (some (columnA sheet))) k = true ↔
      ∃ r ∈ sheet, includes r.email "@" = true ∧ normalize toLowerCase r.email = k := by
  unfold columnA
  cases sheet with
  | nil => simp [getAllEmailsFromSheet, setHas_newSet]
  | cons r rs =>
      simp only [List.isEmpty_cons, Bool.false_eq_true, if_false, getAllEmailsFromSheet,
        setHas_newSet, List.mem_map, List.mem_filter, List.mem_flatten, Bool.and_eq_true]
      constructor
      · rintro ⟨e, ⟨⟨row, ⟨r1, hr1, hrow⟩, he⟩, _, hat⟩, hk⟩
        subst hrow
        rw [List.mem_singleton] at he
        subst he
        exact ⟨r1, hr1, hat, hk⟩
      · rintro ⟨r1, hr1, hat, hk⟩
        exact ⟨r1.email, ⟨⟨[r1.email], ⟨r1, hr1, rfl⟩, List.mem_singleton.2 rfl⟩,
          truthy_of_includes_at _ hat, hat⟩, hk⟩

theorem initialState_has (env : Env) (sheet : List Record) (k : String)
    (hread : env.readOk = true) :
    setHas (initialState env sheet).existingEmails k = true ↔
      ∃ r ∈ sheet, includes r.email "@" = true ∧ normalize env.toLowerCase r.email = k := by
  unfold initialState readResponse
  simp only [hread, if_true]
  exact sheetKeys_iff env.toLowerCase sheet k

/-- After a run in which every append settles, the key of every candidate is the
normalized form of some row holding an `@`. -/
theorem runEmails_keys_in_sheet (env : Env) (hlower : LawfulLower env.toLowerCase)
    (st : State) (emails : List String)
    (happ : ∀ k, env.appendOk k = true)
    (hprops : ∀ c ∈ emails, includes c "@" = true ∧ trim c = c)
    (hinv : ∀ k, setHas st.existingEmails k = true →
      ∃ r ∈ st.sheet, includes r.email "@" = true ∧ normalize env.toLowerCase r.email = k) :
    ∀ c ∈ emails, ∃ r ∈ (runEmails env st emails).sheet,
      includes r.email "@" = true ∧ normalize env.toLowerCase r.email = env.toLowerCase c := by
  induction emails generalizing st with
  | nil => intro c hc; simp at hc
  | cons e es ih =>
      have hmono : ∀ r ∈ (processEmail env st e).sheet,
          r ∈ (runEmails env st (e :: es)).sheet := by
        intro r hr
        obtain ⟨rows, h1, _⟩ := runEmails_sheet env (processEmail env st e) es
        rw [runEmails_cons, h1]
        exact List.mem_append_left _ hr
      have hpe := hprops e (List.mem_cons_self _ _)
      have hkey : normalize env.toLowerCase e = env.toLowerCase e := by
        rw [normalize_eq env.toLowerCase hlower, hpe.2]
      have hstep : (∃ r ∈ (processEmail env st e).sheet,
            includes r.email "@" = true ∧
              normalize env.toLowerCase r.email = env.toLowerCase e) ∧
          (∀ k, setHas (processEmail env st e).existingEmails k = true →
            ∃ r ∈ (processEmail env st e).sheet,
              includes r.email "@" = true ∧ normalize env.toLowerCase r.email = k) := by
        rcases processEmail_cases env st e with
          ⟨hk, _, hst⟩ | ⟨_, _, _, hst⟩ | ⟨_, hno, _, _⟩
        · rw [hst]
          exact ⟨hinv _ hk, hinv⟩
        · rw [hst]
          refine ⟨⟨⟨e, env.dateAt st.appendCalls⟩, by simp, hpe.1, hkey⟩, ?_⟩
          intro k hk
          rcases (setHas_setAdd _ _ _).1 hk with hk | hk
          · obtain ⟨r, hr, h2⟩ := hinv k hk
            exact ⟨r, List.mem_append_left _ hr, h2⟩
          · subst hk
            exact ⟨⟨e, env.dateAt st.appendCalls⟩, by simp, hpe.1, hkey⟩
        · rw [happ] at hno
          cases hno
      intro c hc
      rcases List.mem_cons.1 hc with hc | hc
      · subst hc
        obtain ⟨r, hr, h2⟩ := hstep.1
        exact ⟨r, hmono r hr, h2⟩
      · rw [runEmails_cons]
        exact ih (processEmail env st e)
          (fun c1 hc1 => hprops c1 (List.mem_cons_of_mem _ hc1)) hstep.2 c hc

/-- The snapshot of a fresh state never holds a key that is not in the sheet. -/
theorem initialState_sound (env : Env) (sheet : List Record) (k : String)
    (h : setHas (initialState env sheet).existingEmails k = true) :
    ∃ r ∈ sheet, includes r.email "@" = true ∧ normalize env.toLowerCase r.email = k := by
  cases hread : env.readOk with
  | true => exact (initialState_has env sheet k hread).1 h
  | false =>
      unfold initialState readResponse at h
      simp [hread, getAllEmailsFromSheet, setHas_newSet] at h

/-! ## Uniqueness of the normalized emails -/

theorem unique_snoc (toLowerCase : String → String) (sheet : List Record) (r : Record)
    (huniq : Unique toLowerCase sheet)
    (hnew : ∀ r1 ∈ sheet, normalize toLowerCase r1.email ≠ normalize toLowerCase r.email) :
    Unique toLowerCase (sheet ++ [r]) := by
  unfold Unique at huniq ⊢
  rw [List.map_append, List.nodup_append]
  refine ⟨huniq, by simp, ?_⟩
  intro x hx hx1
  rw [List.map_singleton, List.mem_singleton] at hx1
  rw [List.mem_map] at hx
  obtain ⟨r1, hr1, h1⟩ := hx
  exact hnew r1 hr1 (h1.trans hx1)

/-- A key that is not in a snapshot covering the sheet is the normalized form of no row,
provided the key holds an `@`. -/
theorem fresh_key (toLowerCase : String → String) (hlower : LawfulLower toLowerCase)
    (sheet : List Record) (snapshot : List String) (email : String)
    (hat : includes email "@" = true)
    (hcov : ∀ r ∈ sheet, includes r.email "@" = true →
      setHas snapshot (normalize toLowerCase r.email) = true)
    (hnot : setHas snapshot (normalize toLowerCase email) = false) :
    ∀ r1 ∈ sheet, normalize toLowerCase r1.email ≠ normalize toLowerCase email := by
  intro r1 hr1 heq
  have h1 : includes r1.email "@" = true := by
    rw [← includes_at_normalize toLowerCase hlower, heq, includes_at_normalize toLowerCase hlower]
    exact hat
  have := hcov r1 hr1 h1
  rw [heq, hnot] at this
  cases this

theorem runEmails_unique (env : Env) (hlower : LawfulLower env.toLowerCase)
    (st : State) (emails : List String)
    (hprops : ∀ c ∈ emails, includes c "@" = true ∧ trim c = c)
    (huniq : Unique env.toLowerCase st.sheet)
    (hcov : ∀ r ∈ st.sheet, includes r.email "@" = true →
      setHas st.existingEmails (normalize env.toLowerCase r.email) = true) :
    Unique env.toLowerCase (runEmails env st emails).sheet := by
  induction emails generalizing st with
  | nil => exact huniq
  | cons e es ih =>
      rw [runEmails_cons]
      have hpe := hprops e (List.mem_cons_self _ _)
      have hkey : normalize env.toLowerCase e = env.toLowerCase e := by
        rw [normalize_eq env.toLowerCase hlower, hpe.2]
      apply ih _ (fun c hc => hprops c (List.mem_cons_of_mem _ hc))
      · rcases processEmail_cases env st e with
          ⟨_, _, hst⟩ | ⟨hno, _, _, hst⟩ | ⟨_, _, _, hst⟩
        · rw [hst]; exact huniq
        · rw [hst]
          exact unique_snoc env.toLowerCase _ _ huniq
            (fresh_key env.toLowerCase hlower st.sheet st.existingEmails e hpe.1 hcov
              (hkey ▸ hno))
        · rw [hst]; exact huniq
      · rcases processEmail_cases env st e with
          ⟨_, _, hst⟩ | ⟨_, _, _, hst⟩ | ⟨_, _, _, hst⟩
        · rw [hst]; exact hcov
        · rw [hst]
          intro r hr hat
          rw [setHas_setAdd]
          rcases List.mem_append.1 hr with hr | hr
          · exact Or.inl (hcov r hr hat)
          · rw [List.mem_singleton] at hr
            subst hr
            exact Or.inr hkey
        · rw [hst]; exact hcov

theorem two_of_countP {α : Type} (p : α → Bool) (l : List α) (h : 2 ≤ l.countP p) :
    ∃ pre a mid b post, l = pre ++ a :: (mid ++ b :: post) ∧ p a = true ∧ p b = true := by
  induction l with
  | nil => simp at h
  | cons x xs ih =>
      by_cases hx : p x = true
      · rw [List.countP_cons_of_pos _ _ hx] at h
        have hpos : 0 < xs.countP p := by omega
        obtain ⟨b, hb, hpb⟩ := List.countP_pos_iff.1 hpos
        obtain ⟨mid, post, hsplit⟩ := List.append_of_mem hb
        exact ⟨[], x, mid, b, post, by rw [hsplit]; rfl, hx, hpb⟩
      · rw [List.countP_cons_of_neg _ _ hx] at h
        obtain ⟨pre, a, mid, b, post, hl, ha, hb⟩ := ih h
        exact ⟨x :: pre, a, mid, b, post, by rw [hl]; rfl, ha, hb⟩

/-- After an occurrence of a key that was skipped or appended, every later occurrence of
the key is skipped. -/
theorem eventsOf_later_skipped (env : Env) (st : State) (emails : List String)
    (pre mid post : List Event) (ev1 ev2 : Event)
    (hlog : eventsOf env st emails = pre ++ ev1 :: (mid ++ ev2 :: post))
    (hkey : env.toLowerCase ev2.email = env.toLowerCase ev1.email)
    (hnofail : ev1 ≠ .appendFailed ev1.email) : ev2 = .skipped ev2.email := by
  obtain ⟨es1, es2, _, _, h2⟩ := eventsOf_split env st emails _ _ hlog
  obtain ⟨e, es, _, hev, hrest⟩ := eventsOf_cons_eq env _ es2 _ _ h2
  have hmem : ev2 ∈ eventsOf env (processEmail env (runEmails env st es1) e) es := by
    rw [hrest]; simp
  apply eventsOf_skipped env _ es ev2 hmem
  rw [hkey, ← hev, eventOf_email]
  rcases processEmail_cases env (runEmails env st es1) e with
    ⟨hk, _, hst⟩ | ⟨_, _, _, hst⟩ | ⟨_, _, hfail, _⟩
  · rw [hst]; exact hk
  · rw [hst]; exact (setHas_setAdd _ _ _).2 (Or.inr rfl)
  · rw [← hev, eventOf_email, hfail] at hnofail
    exact absurd rfl hnofail

/-- After a failed append of a key, the key is still out of the snapshot until an append
of it settles. -/
theorem eventsOf_retry (env : Env) (st : State) (emails : List String)
    (pre mid post : List Event) (email : String) (ev : Event)
    (hlog : eventsOf env st emails = pre ++ .appendFailed email :: (mid ++ ev :: post))
    (hkey : env.toLowerCase ev.email = env.toLowerCase email)
    (hmid : ∀ m ∈ mid, m.isAppended = true →
      env.toLowerCase m.email ≠ env.toLowerCase email) :
    ev.isAppendCall = true := by
  obtain ⟨es1, es2, _, _, h2⟩ := eventsOf_split env st emails _ _ hlog
  obtain ⟨e, es, _, hev, hrest⟩ := eventsOf_cons_eq env _ es2 _ _ h2
  obtain ⟨es3, es4, _, h3, h4⟩ := eventsOf_split env _ es _ _ hrest
  obtain ⟨e2, es5, _, hev2, _⟩ := eventsOf_cons_eq env _ es4 _ _ h4
  have he : e = email := by
    have := congrArg Event.email hev
    rw [eventOf_email] at this
    exact this
  subst he
  have he2 : e2 = ev.email := by
    have := congrArg Event.email hev2
    rw [eventOf_email] at this
    exact this
  have hout : setHas (processEmail env (runEmails env st es1) e).existingEmails
      (env.toLowerCase e) = false := by
    rcases processEmail_cases env (runEmails env st es1) e with
      ⟨_, hsk, _⟩ | ⟨_, _, hap, _⟩ | ⟨hno, _, _, hst⟩
    · rw [hsk] at hev; cases hev
    · rw [hap] at hev; cases hev
    · rw [hst]; exact hno
  have hstill : setHas (runEmails env (processEmail env (runEmails env st es1) e)
      es3).existingEmails (env.toLowerCase e) = false := by
    rw [Bool.eq_false_iff]
    intro hin
    rcases (runEmails_has env _ es3 _).1 hin with hin | ⟨e1, hmem, hk⟩
    · rw [hout] at hin; cases hin
    · rw [h3] at hmem
      exact hmid _ hmem rfl hk
  rw [← hev2]
  unfold eventOf
  rw [he2, hkey, hstill]
  simp only [Bool.false_eq_true, if_false]
  split <;> rfl

/-! ## Two runs on one runtime, the manual add, and absent fields -/

theorem lengthGtZero_congr (env1 env2 : Env)
    (hcoerce : env2.coerceGtZero = env1.coerceGtZero) (x : Json) :
    lengthGtZero env2 x = lengthGtZero env1 x := by
  cases x with
  | obj members =>
      simp only [lengthGtZero]
      cases member members "length" with
      | none => rfl
      | some j => cases j <;> simp [gtZero, hcoerce]
  | null => rfl
  | bool b => rfl
  | num n => rfl
  | str s => rfl
  | arr items => rfl

/-- The candidates of a batch depend on the environment through the runtime only. -/
theorem considered_congr (env1 env2 : Env) (hsame : env2.toLowerCase = env1.toLowerCase)
    (hcoerce : env2.coerceGtZero = env1.coerceGtZero) (body : Json) :
    considered env2 body = considered env1 body := by
  have hfield : fieldCandidates env2 = fieldCandidates env1 := by
    funext field
    unfold fieldCandidates
    simp only [lengthGtZero_congr env1 env2 hcoerce]
  have hcontact : contactCandidates env2 = contactCandidates env1 := by
    funext contact
    unfold contactCandidates
    rw [hsame, hfield]
  unfold considered
  rw [hcontact]

/-- The sheet a manual add leaves: the sheet it found, or that sheet and one row for a
string that holds an `@` and whose key was not in the snapshot. -/
theorem addTestEmail_sheet (env : Env) (sheet : List Record) (body : Json) :
    (addTestEmail env sheet body).sheet = sheet ∨
      ∃ text, includes text "@" = true ∧
        setHas (getAllEmailsFromSheet env.toLowerCase (readResponse env sheet))
          (normalize env.toLowerCase text) = false ∧
        (addTestEmail env sheet body).sheet = sheet ++ [⟨text, env.dateAt 0⟩] := by
  unfold addTestEmail
  cases getProp body "email" with
  | none => exact Or.inl rfl
  | some v =>
      cases v with
      | none => exact Or.inl rfl
      | some email =>
          simp only
          cases isTruthy (some email) with
          | false => exact Or.inl rfl
          | true =>
              simp only [Bool.not_true, Bool.false_eq_true, if_false]
              cases hinc : includesAt email with
              | none => exact Or.inl rfl
              | some b =>
                  cases b with
                  | false => exact Or.inl rfl
                  | true =>
                      cases email with
                      | str text =>
                          have hat : includes text "@" = true := by
                            simpa [includesAt] using hinc
                          simp only
                          cases hhas : setHas
                              (getAllEmailsFromSheet env.toLowerCase (readResponse env sheet))
                              (trim (env.toLowerCase text)) with
                          | true => exact Or.inl rfl
                          | false =>
                              simp only [Bool.false_eq_true, if_false, addEmailToSheet]
                              cases env.appendOk 0 with
                              | true => exact Or.inr ⟨text, hat, hhas, rfl⟩
                              | false => exact Or.inl rfl
                      | null => exact Or.inl rfl
                      | bool b => exact Or.inl rfl
                      | num n => exact Or.inl rfl
                      | arr items => exact Or.inl rfl
                      | obj members => exact Or.inl rfl

/-- An item whose loop body changes nothing and throws nothing can be left out. -/
theorem forOf_erase {α : Type} (body : State → α → Except State State) (x : α)
    (h : ∀ st, body st x = .ok st) (st : State) (pre post : List α) :
    forOf body st (pre ++ x :: post) = forOf body st (pre ++ post) := by
  induction pre generalizing st with
  | nil =>
      rw [List.nil_append, forOf, h, List.nil_append]
  | cons y ys ih =>
      rw [List.cons_append, List.cons_append, forOf, forOf]
      cases body st y with
      | ok st1 => exact ih st1
      | error st1 => rfl

/-- A field the filter callback rejects can be left out. -/
theorem filterEmailFields_erase (toLowerCase : String → String) (x : Json)
    (h : isEmailField toLowerCase x = some false) (pre post : List Json) :
    filterEmailFields toLowerCase (pre ++ x :: post)
      = filterEmailFields toLowerCase (pre ++ post) := by
  induction pre with
  | nil =>
      rw [List.nil_append, filterEmailFields, h, List.nil_append]
      cases filterEmailFields toLowerCase post <;> rfl
  | cons y ys ih =>
      rw [List.cons_append, List.cons_append, filterEmailFields, filterEmailFields, ih]

/-- The comparison `x === s` holds for the string `s` only. -/
theorem strictEquals_iff (item : Json) (s : String) :
    strictEquals (some item) s = true ↔ item = .str s := by
  cases item <;> simp [strictEquals]

/-- An absent field is `undefined` or `null`. -/
theorem isAbsent_cases (x : Json) (key : String) (h : isAbsent x key = true) :
    getProp x key = some none ∨ getProp x key = some (some .null) := by
  unfold isAbsent at h
  split at h
  · exact Or.inl (by assumption)
  · exact Or.inr (by assumption)
  · cases h

/-- Two items on which the loop body agrees can stand for one another. -/
theorem forOf_congr {α : Type} (body : State → α → Except State State) (a b : α)
    (h : ∀ st, body st a = body st b) (st : State) (pre post : List α) :
    forOf body st (pre ++ a :: post) = forOf body st (pre ++ b :: post) := by
  induction pre generalizing st with
  | nil =>
      rw [List.nil_append, List.nil_append, forOf, forOf, h]
  | cons y ys ih =>
      rw [List.cons_append, List.cons_append, forOf, forOf]
      cases body st y with
      | ok st1 => exact ih st1
      | error st1 => rfl

theorem filterEmailFields_append (toLowerCase : String → String) (l1 l2 : List Json) :
    filterEmailFields toLowerCase (l1 ++ l2)
      = match filterEmailFields toLowerCase l1, filterEmailFields toLowerCase l2 with
        | some kept1, some kept2 => some (kept1 ++ kept2)
        | _, _ => none := by
  induction l1 with
  | nil =>
      rw [List.nil_append, filterEmailFields]
      cases filterEmailFields toLowerCase l2 <;> rfl
  | cons y ys ih =>
      rw [List.cons_append, filterEmailFields, filterEmailFields, ih]
      cases isEmailField toLowerCase y with
      | none => rfl
      | some keep =>
          cases filterEmailFields toLowerCase ys with
          | none => rfl
          | some kept1 =>
              cases filterEmailFields toLowerCase l2 with
              | none => rfl
              | some kept2 => cases keep <;> rfl

/-- A field on which the filter callback does not throw and which the loop body passes
over can be left out of the fields of a contact. -/
theorem filterEmailFields_skip (env : Env) (a : Json)
    (h : ∀ st, processField env st a = .ok st)
    (ha : isEmailField env.toLowerCase a ≠ none) (st : State) (pre post : List Json) :
    (match filterEmailFields env.toLowerCase (pre ++ a :: post) with
      | none => Except.error st
      | some emailFields => forFields env st emailFields)
    = (match filterEmailFields env.toLowerCase (pre ++ post) with
      | none => Except.error st
      | some emailFields => forFields env st emailFields) := by
  rw [filterEmailFields_append, filterEmailFields_append, filterEmailFields]
  cases hk : isEmailField env.toLowerCase a with
  | none => exact absurd hk ha
  | some keep =>
      cases filterEmailFields env.toLowerCase pre with
      | none => rfl
      | some kept1 =>
          cases filterEmailFields env.toLowerCase post with
          | none => rfl
          | some kept2 =>
              cases keep with
              | false => rfl
              | true => exact forOf_erase (processField env) a h st kept1 kept2

/-- The run of a contact over two field lists that differ in one field agree when the
filter callback and the loop body treat the two fields alike. -/
theorem filterEmailFields_congr (env : Env) (a b : Json)
    (hfilter : isEmailField env.toLowerCase a = isEmailField env.toLowerCase b)
    (hbody : ∀ st, processField env st a = processField env st b)
    (st : State) (pre post : List Json) :
    (match filterEmailFields env.toLowerCase (pre ++ a :: post) with
      | none => Except.error st
      | some emailFields => forFields env st emailFields)
    = (match filterEmailFields env.toLowerCase (pre ++ b :: post) with
      | none => Except.error st
      | some emailFields => forFields env st emailFields) := by
  rw [filterEmailFields_append, filterEmailFields_append, filterEmailFields,
    filterEmailFields, hfilter]
  cases isEmailField env.toLowerCase b with
  | none => cases filterEmailFields env.toLowerCase pre <;> rfl
  | some keep =>
      cases filterEmailFields env.toLowerCase pre with
      | none => rfl
      | some kept1 =>
          cases filterEmailFields env.toLowerCase post with
          | none => rfl
          | some kept2 =>
              cases keep with
              | false => rfl
              | true => exact forOf_congr (processField env) a b hbody st kept1 kept2

theorem webhookAmocrm_batch (env : Env) (sheet : List Record) (contacts : List Json) :
    webhookAmocrm env sheet (batch contacts)
      = match forContacts env (initialState env sheet) contacts with
        | .ok st => { state := st, crashed := false }
        | .error st => { state := st, crashed := true } :=
  rfl

theorem processContact_contactWith (env : Env) (st : State) (fields : List Json) :
    processContact env st (contactWith fields)
      = match filterEmailFields env.toLowerCase fields with
        | none => .error st
        | some emailFields => forFields env st emailFields :=
  rfl

theorem isEmailField_customField (toLowerCase : String → String) (code name : Option String)
    (values : List Json) :
    isEmailField toLowerCase (customField code name values)
      = isEmailField toLowerCase (customField code name []) := by
  cases code <;> cases name <;> rfl

theorem processField_customField (env : Env) (st : State) (code name : Option String)
    (values : List Json) :
    processField env st (customField code name values) = forValues env st values := by
  have h : getProp (customField code name values) "values" = some (some (.arr values)) := by
    cases code <;> cases name <;> rfl
  cases values with
  | nil => simp [processField, h, isTruthy, lengthGtZero, forValues, forOf]
  | cons v rest => simp [processField, h, isTruthy, lengthGtZero, iterate]

/-- Two contacts on which the loop body agrees give the same run of the handler. -/
theorem webhookAmocrm_congr (env : Env) (sheet : List Record) (a b : Json)
    (h : ∀ st, processContact env st a = processContact env st b) (pre post : List Json) :
    webhookAmocrm env sheet (batch (pre ++ a :: post))
      = webhookAmocrm env sheet (batch (pre ++ b :: post)) := by
  rw [webhookAmocrm_batch, webhookAmocrm_batch]
  unfold forContacts
  rw [forOf_congr (processContact env) a b h]

/-! ## The claims -/

/-- C1: when the store read succeeds and some stored email has the same normalized form
as the raw value of a candidate, the event of that candidate is the "already present"
branch: no append call is made for it, and it is not among the successful appends that
`addedCount` counts. -/
theorem stored_email_is_skipped (env : Env) (hlower : LawfulLower env.toLowerCase)
    (sheet : List Record) (body : Json)
    (raw : String) (ev : Event) (hread : env.readOk = true)
    (hev : ev ∈ (webhookAmocrm env sheet body).state.log) (hraw : ev.email = trim raw)
    (hstored : ∃ r ∈ sheet, normalize env.toLowerCase r.email = normalize env.toLowerCase raw) :
    ev = .skipped (trim raw) ∧ ev.isAppendCall = false ∧
    (webhookAmocrm env sheet body).state.addedCount
      = (webhookAmocrm env sheet body).state.log.countP Event.isAppended ∧
    (webhookAmocrm env sheet body).state.appendCalls
      = (webhookAmocrm env sheet body).state.log.countP Event.isAppendCall := by
  have hlog := webhookAmocrm_log env sheet body
  have hmem : ev.email ∈ (considered env body).1 := by
    rw [← eventsOf_map_email env (initialState env sheet) (considered env body).1, ← hlog]
    exact List.mem_map_of_mem _ hev
  have hp := considered_props env body _ hmem
  obtain ⟨r, hr, hnorm⟩ := hstored
  have hkey : normalize env.toLowerCase r.email = env.toLowerCase ev.email := by
    rw [hnorm, hraw, normalize_eq env.toLowerCase hlower]
  have hat : includes r.email "@" = true := by
    rw [← includes_at_normalize env.toLowerCase hlower, hkey, hlower.at_iff]
    exact hp.1
  have hhas : setHas (initialState env sheet).existingEmails (env.toLowerCase ev.email) = true :=
    (initialState_has env sheet _ hread).2 ⟨r, hr, hat, hkey⟩
  have hskip : ev = .skipped ev.email :=
    eventsOf_skipped env _ _ ev (hlog ▸ hev) hhas
  refine ⟨hraw ▸ hskip, by rw [hskip]; rfl, ?_, ?_⟩
  · rw [webhookAmocrm_addedCount, hlog, runEmails_addedCount]
    simp [initialState]
  · rw [webhookAmocrm_appendCalls, hlog, runEmails_appendCalls]
    simp [initialState]

/-- Scenario 1 as an instance of C1. -/
theorem stored_email_is_skipped_witness :
    LawfulLower envOk.toLowerCase ∧ envOk.readOk = true ∧
    Event.skipped "ALICE@X.com" ∈ (webhookAmocrm envOk aliceSheet aliceBatch).state.log ∧
    (∃ r ∈ aliceSheet, normalize asciiLower r.email = normalize asciiLower "ALICE@X.com") ∧
    (webhookAmocrm envOk aliceSheet aliceBatch).state.addedCount = 0 ∧
    (Event.skipped "ALICE@X.com" = .skipped (trim "ALICE@X.com") ∧
      (Event.skipped "ALICE@X.com").isAppendCall = false ∧
      (webhookAmocrm envOk aliceSheet aliceBatch).state.addedCount
        = (webhookAmocrm envOk aliceSheet aliceBatch).state.log.countP Event.isAppended ∧
      (webhookAmocrm envOk aliceSheet aliceBatch).state.appendCalls
        = (webhookAmocrm envOk aliceSheet aliceBatch).state.log.countP Event.isAppendCall) :=
  ⟨asciiLower_lawful, rfl, by decide,
    ⟨⟨"alice@x.com", "01.01.2024"⟩, by decide, by decide⟩, by decide,
    stored_email_is_skipped envOk asciiLower_lawful aliceSheet aliceBatch "ALICE@X.com"
      (.skipped "ALICE@X.com")
      rfl (by decide) (by decide) ⟨⟨"alice@x.com", "01.01.2024"⟩, by decide, by decide⟩⟩

/-- C2 as stated fails: with the batch of scenario 2 and every append rejected, both
occurrences of `bob@x.com` reach `addEmailToSheet`; the second one is not skipped. -/
theorem duplicate_retried_after_failure :
    (webhookAmocrm envAppendFails [] bobBatch).state.log
      = [.appendFailed "bob@x.com", .appendFailed "bob@x.com"] ∧
    (webhookAmocrm envAppendFails [] bobBatch).state.appendCalls = 2 := by
  decide

/-- C2, amended: for every sheet, every outcome of the read and of the appends and every
batch, if no append call for a normalized email fails, then at most one append call is
made for it, and of two candidates with that normalized form that reach the membership
test the later one takes the "already present" branch. -/
theorem duplicate_in_batch_appended_once (env : Env) (sheet : List Record) (body : Json)
    (k : String)
    (hnofail : ∀ ev ∈ (webhookAmocrm env sheet body).state.log,
      env.toLowerCase ev.email = k → ev ≠ .appendFailed ev.email) :
    (webhookAmocrm env sheet body).state.log.countP
        (fun ev => ev.isAppendCall && decide (env.toLowerCase ev.email = k)) ≤ 1 ∧
    ∀ pre ev1 mid ev2 post,
      (webhookAmocrm env sheet body).state.log = pre ++ ev1 :: (mid ++ ev2 :: post) →
      env.toLowerCase ev1.email = k → env.toLowerCase ev2.email = k →
      ev2 = .skipped ev2.email := by
  have hlog := webhookAmocrm_log env sheet body
  have hlater : ∀ pre ev1 mid ev2 post,
      (webhookAmocrm env sheet body).state.log = pre ++ ev1 :: (mid ++ ev2 :: post) →
      env.toLowerCase ev1.email = k → env.toLowerCase ev2.email = k →
      ev2 = .skipped ev2.email := by
    intro pre ev1 mid ev2 post hsplit h1 h2
    have hmem : ev1 ∈ (webhookAmocrm env sheet body).state.log := by
      rw [hsplit]; simp
    exact eventsOf_later_skipped env _ _ pre mid post ev1 ev2 (hlog ▸ hsplit)
      (h2.trans h1.symm) (hnofail ev1 hmem h1)
  refine ⟨?_, hlater⟩
  by_contra hcount
  obtain ⟨pre, a, mid, b, post, hsplit, ha, hb⟩ :=
    two_of_countP _ _ (Nat.lt_of_not_le hcount)
  simp only [Bool.and_eq_true, decide_eq_true_eq] at ha hb
  have := hlater pre a mid b post hsplit ha.2 hb.2
  rw [this] at hb
  simp [Event.isAppendCall] at hb

/-- Scenario 2 as an instance of the amended C2: one append call for `bob@x.com`,
the second occurrence skipped, `addedCount = 1`. -/
theorem duplicate_in_batch_appended_once_witness :
    (∀ ev ∈ (webhookAmocrm envOk [] bobBatch).state.log,
      asciiLower ev.email = "bob@x.com" → ev ≠ .appendFailed ev.email) ∧
    (webhookAmocrm envOk [] bobBatch).state.log
      = [.appended "bob@x.com", .skipped "bob@x.com"] ∧
    (webhookAmocrm envOk [] bobBatch).state.addedCount = 1 ∧
    ((webhookAmocrm envOk [] bobBatch).state.log.countP
        (fun ev => ev.isAppendCall && decide (asciiLower ev.email = "bob@x.com")) ≤ 1 ∧
    ∀ pre ev1 mid ev2 post,
      (webhookAmocrm envOk [] bobBatch).state.log = pre ++ ev1 :: (mid ++ ev2 :: post) →
      asciiLower ev1.email = "bob@x.com" → asciiLower ev2.email = "bob@x.com" →
      ev2 = .skipped ev2.email) :=
  ⟨by decide, by decide, by decide,
    duplicate_in_batch_appended_once envOk [] bobBatch "bob@x.com" (by decide)⟩

/-- C3: when a batch is ingested twice in succession on the same runtime, every append of
the first run settling and the read of the second run returning the rows then stored,
the second run makes no append call, ends with `addedCount = 0` and leaves the sheet as
the first run left it. -/
theorem second_run_adds_nothing (env1 env2 : Env) (hlower : LawfulLower env1.toLowerCase)
    (hsame : env2.toLowerCase = env1.toLowerCase)
    (hcoerce : env2.coerceGtZero = env1.coerceGtZero) (sheet : List Record) (body : Json)
    (happ : ∀ k, env1.appendOk k = true) (hread : env2.readOk = true) :
    (webhookAmocrm env2 (webhookAmocrm env1 sheet body).state.sheet body).state.sheet
        = (webhookAmocrm env1 sheet body).state.sheet ∧
    (webhookAmocrm env2 (webhookAmocrm env1 sheet body).state.sheet body).state.addedCount = 0 ∧
    (webhookAmocrm env2 (webhookAmocrm env1 sheet body).state.sheet body).state.appendCalls = 0 ∧
    ∀ ev ∈ (webhookAmocrm env2 (webhookAmocrm env1 sheet body).state.sheet body).state.log,
      ev.isAppendCall = false := by
  have hkeys := runEmails_keys_in_sheet env1 hlower (initialState env1 sheet)
    (considered env1 body).1 happ (considered_props env1 body) (initialState_sound env1 sheet)
  rw [webhookAmocrm_sheet env1 sheet body]
  generalize (runEmails env1 (initialState env1 sheet) (considered env1 body).1).sheet
    = sheet1 at hkeys
  have hall : ∀ e ∈ (considered env2 body).1,
      setHas (initialState env2 sheet1).existingEmails (env2.toLowerCase e) = true := by
    intro e he
    rw [considered_congr env1 env2 hsame hcoerce] at he
    rw [hsame]
    exact (initialState_has env2 sheet1 _ hread).2 (hsame ▸ hkeys e he)
  have hrun := runEmails_all_present env2 (initialState env2 sheet1) _ hall
  rw [webhookAmocrm_sheet, webhookAmocrm_addedCount, webhookAmocrm_appendCalls,
    webhookAmocrm_log, hrun]
  refine ⟨rfl, rfl, rfl, ?_⟩
  intro ev hev
  have hsk := eventsOf_skipped env2 (initialState env2 sheet1) _ ev hev
    (hall ev.email (by
      rw [← eventsOf_map_email env2 (initialState env2 sheet1) (considered env2 body).1]
      exact List.mem_map_of_mem _ hev))
  rw [hsk]
  rfl

/-- Scenario 2 run twice, as an instance of C3. -/
theorem second_run_adds_nothing_witness :
    LawfulLower envOk.toLowerCase ∧ (∀ k, envOk.appendOk k = true) ∧ envOk.readOk = true ∧
    (webhookAmocrm envOk [] bobBatch).state.sheet = [⟨"bob@x.com", "01.01.2024"⟩] ∧
    ((webhookAmocrm envOk (webhookAmocrm envOk [] bobBatch).state.sheet bobBatch).state.sheet
        = (webhookAmocrm envOk [] bobBatch).state.sheet ∧
    (webhookAmocrm envOk (webhookAmocrm envOk [] bobBatch).state.sheet bobBatch).state.addedCount
        = 0 ∧
    (webhookAmocrm envOk (webhookAmocrm envOk [] bobBatch).state.sheet bobBatch).state.appendCalls
        = 0 ∧
    ∀ ev ∈
        (webhookAmocrm envOk (webhookAmocrm envOk [] bobBatch).state.sheet bobBatch).state.log,
      ev.isAppendCall = false) :=
  ⟨asciiLower_lawful, fun _ => rfl, rfl, by decide,
    second_run_adds_nothing envOk envOk asciiLower_lawful rfl rfl [] bobBatch
      (fun _ => rfl) rfl⟩

/-- C4 as stated fails: when the read is rejected the snapshot is empty, and a stored
email is appended a second time. -/
theorem read_failure_breaks_uniqueness :
    Unique asciiLower aliceSheet ∧
    (webhookAmocrm envReadFails aliceSheet aliceBatch).state.sheet
      = [⟨"alice@x.com", "01.01.2024"⟩, ⟨"ALICE@X.com", "02.01.2024"⟩] ∧
    ¬ Unique asciiLower (webhookAmocrm envReadFails aliceSheet aliceBatch).state.sheet := by
  decide

/-- C4, amended: if no two rows of the sheet have emails with the same normalized form
and the store read of the call succeeds, then after a webhook run, and after a manual
add, still no two rows have emails with the same normalized form. -/
theorem uniqueness_preserved (env : Env) (hlower : LawfulLower env.toLowerCase)
    (sheet : List Record) (hread : env.readOk = true)
    (huniq : Unique env.toLowerCase sheet) :
    (∀ body, Unique env.toLowerCase (webhookAmocrm env sheet body).state.sheet) ∧
    (∀ body, Unique env.toLowerCase (addTestEmail env sheet body).sheet) := by
  have hcov : ∀ r ∈ sheet, includes r.email "@" = true →
      setHas (getAllEmailsFromSheet env.toLowerCase (readResponse env sheet))
        (normalize env.toLowerCase r.email) = true := by
    intro r hr hat
    exact (initialState_has env sheet _ hread).2 ⟨r, hr, hat, rfl⟩
  constructor
  · intro body
    rw [webhookAmocrm_sheet]
    exact runEmails_unique env hlower _ _ (considered_props env body) huniq hcov
  · intro body
    rcases addTestEmail_sheet env sheet body with h | ⟨text, hat, hhas, h⟩
    · rw [h]; exact huniq
    · rw [h]
      exact unique_snoc env.toLowerCase _ _ huniq
        (fresh_key env.toLowerCase hlower sheet _ text hat hcov hhas)

/-- Scenario 1 and a manual add of a stored email, as instances of the amended C4. -/
theorem uniqueness_preserved_witness :
    LawfulLower envOk.toLowerCase ∧ envOk.readOk = true ∧ Unique asciiLower aliceSheet ∧
    (webhookAmocrm envOk aliceSheet aliceBatch).state.sheet = aliceSheet ∧
    (addTestEmail envOk aliceSheet (emailBody (.str " Alice@x.com"))).sheet = aliceSheet ∧
    ((∀ body, Unique asciiLower (webhookAmocrm envOk aliceSheet body).state.sheet) ∧
    (∀ body, Unique asciiLower (addTestEmail envOk aliceSheet body).sheet)) :=
  ⟨asciiLower_lawful, rfl, by decide, by decide, by decide,
    uniqueness_preserved envOk asciiLower_lawful aliceSheet rfl (by decide)⟩

/-- C5 as stated fails: in a contact whose `EMAIL` field holds a number before the string
`erin@x.com`, reading the number throws, and the loop considers no candidate at all,
while the reference definition yields `erin@x.com`. -/
theorem candidate_lost_after_number :
    specExtractEmails asciiLower numberFirstContact = ["erin@x.com"] ∧
    (webhookAmocrm envOk [] (batch [numberFirstContact])).state.log = [] ∧
    (webhookAmocrm envOk [] (batch [numberFirstContact])).crashed = true := by
  decide

/-- C5, amended: for every batch the handler goes through without throwing a `TypeError`,
the candidate emails the webhook loops consider are, in contact order, field order then
value order and with duplicates kept, exactly the extraction the specification words: the
trimmed raw value of every value holding a string whose trimmed form contains `@`, taken
from the fields whose code is `EMAIL` or whose lowercased name contains `email`; for a
batch of one contact that is the extraction of the contact.  With or without a throw
they are the leading part of that extraction. -/
theorem extraction_matches_spec (env : Env) (sheet : List Record) (body : Json)
    (h : (webhookAmocrm env sheet body).crashed = false) :
    (webhookAmocrm env sheet body).state.log.map Event.email
      = specBatchEmails env.toLowerCase body ∧
    (∀ contact, body = batch [contact] →
      (webhookAmocrm env sheet body).state.log.map Event.email
        = specExtractEmails env.toLowerCase contact) ∧
    ∀ sheet1 body1, (webhookAmocrm env sheet1 body1).state.log.map Event.email
      <+: specBatchEmails env.toLowerCase body1 := by
  have hall : (webhookAmocrm env sheet body).state.log.map Event.email
      = specBatchEmails env.toLowerCase body := by
    rw [webhookAmocrm_crashed] at h
    rw [webhookAmocrm_log, eventsOf_map_email]
    exact (considered_spec env body).2 h
  refine ⟨hall, ?_, ?_⟩
  · intro contact hbody
    rw [hall, hbody]
    exact List.append_nil _
  · intro sheet1 body1
    rw [webhookAmocrm_log, eventsOf_map_email]
    exact (considered_spec env body1).1

/-- The format-tolerance and boundary examples as an instance of the amended C5: the
`EMAIL` field and the `Work Email` field yield candidates; the `Phone` field, with a
string and a number in it, and the empty, missing and `@`-less values yield none. -/
theorem extraction_matches_spec_witness :
    (webhookAmocrm envOk [] (batch [mixedContact])).crashed = false ∧
    specBatchEmails asciiLower (batch [mixedContact]) = ["a@x.com", "B@x.com"] ∧
    (webhookAmocrm envOk [] (batch [mixedContact])).state.log
      = [.appended "a@x.com", .appended "B@x.com"] ∧
    ((webhookAmocrm envOk [] (batch [mixedContact])).state.log.map Event.email
      = specBatchEmails asciiLower (batch [mixedContact]) ∧
    (∀ contact, batch [mixedContact] = batch [contact] →
      (webhookAmocrm envOk [] (batch [mixedContact])).state.log.map Event.email
        = specExtractEmails asciiLower contact) ∧
    ∀ sheet1 body1, (webhookAmocrm envOk sheet1 body1).state.log.map Event.email
      <+: specBatchEmails asciiLower body1) :=
  ⟨by decide, by decide, by decide,
    extraction_matches_spec envOk [] (batch [mixedContact]) (by decide)⟩

/-- C6: when the append for a candidate that is not in the snapshot fails, the loop goes
on with the next value from a state that differs only in the call counter and the log:
`addedCount`, the snapshot and the sheet are as before and nothing is thrown.  In a run,
a later candidate with the same normalized form, no append of that form having settled
in between, reaches `addEmailToSheet` again instead of being skipped. -/
theorem append_failure_isolated (env : Env) (st : State) (value : Json) (raw : String)
    (rest : List Json) (sheet : List Record) (body : Json)
    (pre mid post : List Event) (email : String) (ev : Event)
    (hvalue : getProp value "value" = some (some (.str raw)))
    (hat : includes (trim raw) "@" = true)
    (hnew : setHas st.existingEmails (env.toLowerCase (trim raw)) = false)
    (hfail : env.appendOk st.appendCalls = false)
    (hlog : (webhookAmocrm env sheet body).state.log
      = pre ++ .appendFailed email :: (mid ++ ev :: post))
    (hkey : env.toLowerCase ev.email = env.toLowerCase email)
    (hmid : ∀ m ∈ mid, m.isAppended = true →
      env.toLowerCase m.email ≠ env.toLowerCase email) :
    forValues env st (value :: rest)
      = forValues env { st with appendCalls := st.appendCalls + 1,
                                log := st.log ++ [.appendFailed (trim raw)] } rest ∧
    ev.isAppendCall = true ∧
    (webhookAmocrm env sheet body).state.addedCount
      = (webhookAmocrm env sheet body).state.log.countP Event.isAppended := by
  refine ⟨?_, ?_, ?_⟩
  · unfold forValues
    rw [forOf]
    simp only [processValue, hvalue, hat, truthy_of_includes_at _ hat, Bool.and_self, if_true,
      processEmail_failed env st (trim raw) hnew hfail]
  · exact eventsOf_retry env _ _ pre mid post email ev (webhookAmocrm_log env sheet body ▸ hlog)
      hkey hmid
  · rw [webhookAmocrm_addedCount, webhookAmocrm_log, runEmails_addedCount]
    simp [initialState]

/-- Scenario 3 as an instance of C6: the append for `carol@x.com` fails, the next
candidate with the same normalized form is appended again, `addedCount` stays 0. -/
theorem append_failure_isolated_witness :
    getProp (rawValue "carol@x.com") "value" = some (some (.str "carol@x.com")) ∧
    includes (trim "carol@x.com") "@" = true ∧
    setHas (initialState envAppendFails []).existingEmails (asciiLower (trim "carol@x.com"))
      = false ∧
    envAppendFails.appendOk (initialState envAppendFails []).appendCalls = false ∧
    (webhookAmocrm envAppendFails [] carolBatch).state.log
      = [] ++ .appendFailed "carol@x.com" :: ([] ++ .appendFailed "Carol@X.com" :: []) ∧
    (webhookAmocrm envAppendFails [] carolBatch).state.addedCount = 0 ∧
    (webhookAmocrm envAppendFails [] carolBatch).state.existingEmails = [] ∧
    (forValues envAppendFails (initialState envAppendFails [])
        (rawValue "carol@x.com" :: [rawValue "dan@x.com"])
      = forValues envAppendFails
          { initialState envAppendFails [] with
              appendCalls := (initialState envAppendFails []).appendCalls + 1,
              log := (initialState envAppendFails []).log
                ++ [.appendFailed (trim "carol@x.com")] } [rawValue "dan@x.com"] ∧
    (Event.appendFailed "Carol@X.com").isAppendCall = true ∧
    (webhookAmocrm envAppendFails [] carolBatch).state.addedCount
      = (webhookAmocrm envAppendFails [] carolBatch).state.log.countP Event.isAppended) :=
  ⟨rfl, by decide, by decide, by decide, by decide, by decide, by decide,
    append_failure_isolated envAppendFails (initialState envAppendFails [])
      (rawValue "carol@x.com") "carol@x.com"
      [rawValue "dan@x.com"] [] carolBatch [] [] [] "carol@x.com" (.appendFailed "Carol@X.com")
      rfl (by decide) (by decide) (by decide) (by decide) (by decide)
      (fun m hm => absurd hm (List.not_mem_nil m))⟩

/-- C7, the code at the failing input: the manual add hands the submitted string to
`addEmailToSheet` as it is, with its surrounding white space, while the webhook hands
over the trimmed string; the dedup key of the manual add is lowercased and trimmed. -/
theorem manual_add_persists_untrimmed :
    (addTestEmail envOk [] (emailBody (.str " Bob@X.com "))).appends = [" Bob@X.com "] ∧
    (addTestEmail envOk [] (emailBody (.str " Bob@X.com "))).sheet
      = [⟨" Bob@X.com ", "01.01.2024"⟩] ∧
    (addTestEmail envOk [] (emailBody (.str " Bob@X.com "))).answer = some (200, .success) ∧
    trim " Bob@X.com " = "Bob@X.com" ∧
    normalize asciiLower " Bob@X.com " = "bob@x.com" ∧
    (webhookAmocrm envOk [] (batch [emailContact " Bob@X.com "])).state.sheet
      = [⟨"Bob@X.com", "01.01.2024"⟩] ∧
    (addTestEmail envOk [⟨"bob@x.com", "01.01.2024"⟩] (emailBody (.str " Bob@X.com "))).answer
      = some (200, .info) := by
  decide

/-- C8 as stated fails: for the body `{ "email": ["@"] }` the test of line 155 passes, the
store is read, `email.toLowerCase` throws inside the `try` block and the answer is 500
`error` with no append call; for the body `{ "email": 5 }` the call `email.includes`
throws before the `try` block and the handler sends no answer at all. -/
theorem manual_add_non_string_email :
    addTestEmail envOk aliceSheet (emailBody (.arr [.str "@"]))
      = { answer := some (500, .error), sheet := aliceSheet, reads := 1, appends := [] } ∧
    addTestEmail envOk aliceSheet (emailBody (.num 5))
      = { answer := none, sheet := aliceSheet, reads := 0, appends := [] } := by
  decide

/-- C8, amended: for every request body and store content, the manual add answers 400
`error`, without a store read or an append, exactly when the email is absent or falsy
(empty), a string without `@`, or an array without the element `@`.  When the email is
a string that contains `@`, it reads the store once and answers 200 `info` without an
append exactly when the normalized email is in the snapshot; otherwise it makes exactly
one append call, for the submitted string, and answers 200 `success` when that call
succeeds and 500 `error` when it fails.  When the email is an array with the element
`@`, it reads the store once, makes no append call and answers 500 `error`.  For every
other body (`null`, or a number, `true` or an object as email) the handler throws before
the store is read and sends no answer. -/
theorem manual_add_decision_table (env : Env) (sheet : List Record) (body : Json) :
    ((addTestEmail env sheet body).answer = some (400, .error) ↔
      ∃ email, getProp body "email" = some email ∧
        (isTruthy email = false ∨
          (∃ text, email = some (.str text) ∧ includes text "@" = false) ∨
          ∃ items, email = some (.arr items) ∧ ∀ item ∈ items, item ≠ .str "@")) ∧
    ((addTestEmail env sheet body).answer = some (400, .error) →
      (addTestEmail env sheet body).reads = 0 ∧
      (addTestEmail env sheet body).appends = [] ∧
      (addTestEmail env sheet body).sheet = sheet) ∧
    (∀ text, getProp body "email" = some (some (.str text)) → includes text "@" = true →
      (addTestEmail env sheet body).reads = 1 ∧
      ((addTestEmail env sheet body).answer = some (200, .info) ↔
        setHas (getAllEmailsFromSheet env.toLowerCase (readResponse env sheet))
          (normalize env.toLowerCase text) = true) ∧
      ((addTestEmail env sheet body).answer = some (200, .info) →
        (addTestEmail env sheet body).appends = [] ∧
        (addTestEmail env sheet body).sheet = sheet) ∧
      (setHas (getAllEmailsFromSheet env.toLowerCase (readResponse env sheet))
          (normalize env.toLowerCase text) = false →
        (addTestEmail env sheet body).appends = [text] ∧
        (env.appendOk 0 = true →
          (addTestEmail env sheet body).answer = some (200, .success) ∧
          (addTestEmail env sheet body).sheet = sheet ++ [⟨text, env.dateAt 0⟩]) ∧
        (env.appendOk 0 = false →
          (addTestEmail env sheet body).answer = some (500, .error) ∧
          (addTestEmail env sheet body).sheet = sheet))) ∧
    (∀ items, getProp body "email" = some (some (.arr items)) → .str "@" ∈ items →
      addTestEmail env sheet body
        = { answer := some (500, .error), sheet := sheet, reads := 1, appends := [] }) ∧
    ((getProp body "email" = none ∨
        ∃ email, getProp body "email" = some (some email) ∧ isTruthy (some email) = true ∧
          (∀ text, email ≠ .str text) ∧ ∀ items, email ≠ .arr items) →
      addTestEmail env sheet body
        = { answer := none, sheet := sheet, reads := 0, appends := [] }) := by
  cases hg : getProp body "email" with
  | none => simp [addTestEmail, hg]
  | some v =>
      cases v with
      | none => simp [addTestEmail, hg, isTruthy]
      | some email =>
          cases email with
          | null => simp [addTestEmail, hg, isTruthy]
          | bool b => cases b <;> simp [addTestEmail, hg, isTruthy, includesAt]
          | num n =>
              by_cases hn : n = 0 <;> simp [addTestEmail, hg, isTruthy, includesAt, hn]
          | obj members => simp [addTestEmail, hg, isTruthy, includesAt]
          | arr items =>
              have hany : (items.any fun item => strictEquals (some item) "@") = true
                  ↔ .str "@" ∈ items := by
                rw [List.any_eq_true]
                constructor
                · rintro ⟨item, hmem, heq⟩
                  rw [(strictEquals_iff item "@").1 heq] at hmem
                  exact hmem
                · intro hmem
                  exact ⟨_, hmem, (strictEquals_iff _ "@").2 rfl⟩
              by_cases hmem : Json.str "@" ∈ items
              · have hres : addTestEmail env sheet body
                    = { answer := some (500, .error), sheet := sheet, reads := 1,
                        appends := [] } := by
                  simp [addTestEmail, hg, isTruthy, includesAt, hany.2 hmem]
                rw [hres]
                refine ⟨⟨?_, ?_⟩, ?_, ?_, ?_, ?_⟩
                · intro h
                  simp at h
                · rintro ⟨email, h0, h⟩
                  cases h0
                  rcases h with h | ⟨text, h1, -⟩ | ⟨its, h1, h2⟩
                  · simp [isTruthy] at h
                  · cases h1
                  · cases h1
                    exact absurd rfl (h2 _ hmem)
                · intro h
                  simp at h
                · intro text h
                  cases h
                · intro its _ _
                  rfl
                · rintro (h | ⟨email, h1, -, -, h2⟩)
                  · cases h
                  · cases h1
                    exact absurd rfl (h2 items)
              · have hfalse : (items.any fun item => strictEquals (some item) "@") = false := by
                  cases hb : (items.any fun item => strictEquals (some item) "@") with
                  | false => rfl
                  | true => exact absurd (hany.1 hb) hmem
                have hres : addTestEmail env sheet body
                    = { answer := some (400, .error), sheet := sheet, reads := 0,
                        appends := [] } := by
                  simp [addTestEmail, hg, isTruthy, includesAt, hfalse]
                rw [hres]
                refine ⟨⟨?_, ?_⟩, ?_, ?_, ?_, ?_⟩
                · intro _
                  refine ⟨_, rfl, Or.inr (Or.inr ⟨items, rfl, ?_⟩)⟩
                  intro item hitem heq
                  exact hmem (heq ▸ hitem)
                · intro _
                  rfl
                · intro _
                  exact ⟨rfl, rfl, rfl⟩
                · intro text h
                  cases h
                · intro its h1 h2
                  cases h1
                  exact absurd h2 hmem
                · rintro (h | ⟨email, h1, -, -, h2⟩)
                  · cases h
                  · cases h1
                    exact absurd rfl (h2 items)
          | str e0 =>
              have hthrow : ¬ (some (some (Json.str e0)) = none ∨
                  ∃ email, some (some (Json.str e0)) = some (some email) ∧
                    isTruthy (some email) = true ∧
                    (∀ text, email ≠ .str text) ∧ ∀ items, email ≠ .arr items) := by
                rintro (h | ⟨email, h1, -, h2, -⟩)
                · cases h
                · cases h1
                  exact absurd rfl (h2 e0)
              cases hat : includes e0 "@" with
              | false =>
                  have hres : addTestEmail env sheet body
                      = { answer := some (400, .error), sheet := sheet, reads := 0,
                          appends := [] } := by
                    cases htr : truthy e0 <;>
                      simp [addTestEmail, hg, isTruthy, includesAt, htr, hat]
                  rw [hres]
                  refine ⟨⟨?_, ?_⟩, ?_, ?_, ?_, ?_⟩
                  · intro _
                    exact ⟨_, rfl, Or.inr (Or.inl ⟨e0, rfl, hat⟩)⟩
                  · intro _
                    rfl
                  · intro _
                    exact ⟨rfl, rfl, rfl⟩
                  · intro text h1 h2
                    cases h1
                    rw [hat] at h2
                    cases h2
                  · intro its h
                    cases h
                  · intro h
                    exact absurd h hthrow
              | true =>
                  have htr := truthy_of_includes_at e0 hat
                  have h400 : ¬ ∃ email, some (some (Json.str e0)) = some email ∧
                      (isTruthy email = false ∨
                        (∃ text, email = some (.str text) ∧ includes text "@" = false) ∨
                        ∃ items, email = some (.arr items) ∧
                          ∀ item ∈ items, item ≠ .str "@") := by
                    rintro ⟨email, h0, h⟩
                    cases h0
                    rcases h with h | ⟨text, h1, h2⟩ | ⟨its, h1, -⟩
                    · simp [isTruthy, htr] at h
                    · cases h1
                      rw [hat] at h2
                      cases h2
                    · cases h1
                  cases hhas : setHas
                      (getAllEmailsFromSheet env.toLowerCase (readResponse env sheet))
                      (normalize env.toLowerCase e0) with
                  | true =>
                      have hres : addTestEmail env sheet body
                          = { answer := some (200, .info), sheet := sheet, reads := 1,
                              appends := [] } := by
                        unfold normalize at hhas
                        simp [addTestEmail, hg, isTruthy, includesAt, hat, htr, hhas]
                      rw [hres]
                      refine ⟨⟨?_, ?_⟩, ?_, ?_, ?_, ?_⟩
                      · intro h
                        simp at h
                      · intro h
                        exact absurd h h400
                      · intro h
                        simp at h
                      · intro text h1 _
                        cases h1
                        rw [hhas]
                        refine ⟨rfl, ⟨fun _ => rfl, fun _ => rfl⟩, fun _ => ⟨rfl, rfl⟩,
                          ?_⟩
                        intro h
                        cases h
                      · intro its h
                        cases h
                      · intro h
                        exact absurd h hthrow
                  | false =>
                      cases hok : env.appendOk 0 with
                      | true =>
                          have hres : addTestEmail env sheet body
                              = { answer := some (200, .success),
                                  sheet := sheet ++ [⟨e0, env.dateAt 0⟩], reads := 1,
                                  appends := [e0] } := by
                            unfold normalize at hhas
                            simp [addTestEmail, addEmailToSheet, hg, isTruthy, includesAt, hat,
                              htr, hhas, hok]
                          rw [hres]
                          refine ⟨⟨?_, ?_⟩, ?_, ?_, ?_, ?_⟩
                          · intro h
                            simp at h
                          · intro h
                            exact absurd h h400
                          · intro h
                            simp at h
                          · intro text h1 _
                            cases h1
                            rw [hhas]
                            refine ⟨rfl, ⟨?_, ?_⟩, ?_, ?_⟩
                            · intro h
                              simp at h
                            · intro h
                              cases h
                            · intro h
                              simp at h
                            · intro _
                              refine ⟨rfl, fun _ => ⟨rfl, rfl⟩, ?_⟩
                              intro h
                              cases h
                          · intro its h
                            cases h
                          · intro h
                            exact absurd h hthrow
                      | false =>
                          have hres : addTestEmail env sheet body
                              = { answer := some (500, .error), sheet := sheet, reads := 1,
                                  appends := [e0] } := by
                            unfold normalize at hhas
                            simp [addTestEmail, addEmailToSheet, hg, isTruthy, includesAt, hat,
                              htr, hhas, hok]
                          rw [hres]
                          refine ⟨⟨?_, ?_⟩, ?_, ?_, ?_, ?_⟩
                          · intro h
                            simp at h
                          · intro h
                            exact absurd h h400
                          · intro h
                            simp at h
                          · intro text h1 _
                            cases h1
                            rw [hhas]
                            refine ⟨rfl, ⟨?_, ?_⟩, ?_, ?_⟩
                            · intro h
                              simp at h
                            · intro h
                              cases h
                            · intro h
                              simp at h
                            · intro _
                              refine ⟨rfl, ?_, fun _ => ⟨rfl, rfl⟩⟩
                              intro h
                              cases h
                          · intro its h
                            cases h
                          · intro h
                            exact absurd h hthrow

/-- Scenario 4 as an instance of the amended C8: `not-an-email` is answered 400 without
a store read or an append. -/
theorem manual_add_decision_table_witness :
    (addTestEmail envOk aliceSheet (emailBody (.str "not-an-email"))).answer
      = some (400, .error) ∧
    ((addTestEmail envOk aliceSheet (emailBody (.str "not-an-email"))).reads = 0 ∧
      (addTestEmail envOk aliceSheet (emailBody (.str "not-an-email"))).appends = [] ∧
      (addTestEmail envOk aliceSheet (emailBody (.str "not-an-email"))).sheet = aliceSheet) :=
  ⟨by decide,
    (manual_add_decision_table envOk aliceSheet (emailBody (.str "not-an-email"))).2.1
      (by decide)⟩

/-- C9 as stated fails: a number where a raw string is expected throws inside the `try`
block, the `catch` of line 126 is entered, and the candidate `dave@x.com` of the next
contact is never checked or appended, although the specification's extractor yields it. -/
theorem number_value_ends_batch :
    (webhookAmocrm envOk [] numberBatch).crashed = true ∧
    (webhookAmocrm envOk [] numberBatch).state.log = [] ∧
    (webhookAmocrm envOk [] numberBatch).state.sheet = [] ∧
    specBatchEmails asciiLower numberBatch = ["dave@x.com"] ∧
    (webhookAmocrm envOk [] (batch [emailContact "dave@x.com"])).state.sheet
      = [⟨"dave@x.com", "01.01.2024"⟩] := by
  decide

/-- C9, amended: for every webhook payload, an absent input field (absent contacts,
custom_fields, code, name, values or value) produces no candidate and raises no error,
and the batch is processed exactly as if the element that lacks the field were not
there, so every other candidate of the batch, including those that come after it, is
checked and appended as it is without that element.  A body without contacts is an
empty batch.  A contact without custom_fields, a field without values and a value
without a raw value can be left out of the list their loop goes through, and out of the
batch, with the same result, the field provided the filter callback does not throw on
its name.  A field without code is judged by its name, a field without name by its code,
and a field without both is no email field and can be left out as well. -/
theorem absent_fields_tolerated (env : Env) (st : State) (sheet : List Record) (x : Json)
    (pre post : List Json) :
    (isAbsent x "contacts" = true →
      webhookAmocrm env sheet x = { state := initialState env sheet, crashed := false }) ∧
    (isAbsent x "custom_fields" = true →
      forContacts env st (pre ++ x :: post) = forContacts env st (pre ++ post) ∧
      webhookAmocrm env sheet (batch (pre ++ x :: post))
        = webhookAmocrm env sheet (batch (pre ++ post))) ∧
    (isAbsent x "code" = true → isAbsent x "name" = true →
      filterEmailFields env.toLowerCase (pre ++ x :: post)
        = filterEmailFields env.toLowerCase (pre ++ post) ∧
      ∀ before after,
        webhookAmocrm env sheet (batch (before ++ contactWith (pre ++ x :: post) :: after))
          = webhookAmocrm env sheet (batch (before ++ contactWith (pre ++ post) :: after))) ∧
    (isAbsent x "code" = true → ∀ name, getProp x "name" = some (some (.str name)) →
      isEmailField env.toLowerCase x = some (includes (env.toLowerCase name) "email")) ∧
    (isAbsent x "name" = true → ∀ code, getProp x "code" = some code →
      isEmailField env.toLowerCase x = some (strictEquals code "EMAIL")) ∧
    (isAbsent x "values" = true →
      forFields env st (pre ++ x :: post) = forFields env st (pre ++ post) ∧
      (isEmailField env.toLowerCase x ≠ none → ∀ before after,
        webhookAmocrm env sheet (batch (before ++ contactWith (pre ++ x :: post) :: after))
          = webhookAmocrm env sheet (batch (before ++ contactWith (pre ++ post) :: after)))) ∧
    (isAbsent x "value" = true →
      forValues env st (pre ++ x :: post) = forValues env st (pre ++ post) ∧
      ∀ code name fields1 fields2 before after,
        webhookAmocrm env sheet (batch (before ++
            contactWith (fields1 ++ customField code name (pre ++ x :: post) :: fields2)
              :: after))
          = webhookAmocrm env sheet (batch (before ++
              contactWith (fields1 ++ customField code name (pre ++ post) :: fields2)
                :: after))) := by
  have hcontact : isAbsent x "custom_fields" = true →
      ∀ st1, processContact env st1 x = .ok st1 := by
    intro h st1
    rcases isAbsent_cases x _ h with h1 | h1 <;> simp [processContact, h1, isTruthy]
  have hfield : isAbsent x "values" = true → ∀ st1, processField env st1 x = .ok st1 := by
    intro h st1
    rcases isAbsent_cases x _ h with h1 | h1 <;> simp [processField, h1, isTruthy]
  have hvalue : isAbsent x "value" = true → ∀ st1, processValue env st1 x = .ok st1 := by
    intro h st1
    rcases isAbsent_cases x _ h with h1 | h1 <;> simp [processValue, h1]
  have hcode : isAbsent x "code" = true → isAbsent x "name" = true →
      isEmailField env.toLowerCase x = some false := by
    intro h1 h2
    rcases isAbsent_cases x _ h1 with h1 | h1 <;> rcases isAbsent_cases x _ h2 with h2 | h2 <;>
      simp [isEmailField, h1, h2, strictEquals]
  refine ⟨?_, ?_, ?_, ?_, ?_, ?_, ?_⟩
  · intro h
    rcases isAbsent_cases x _ h with h1 | h1 <;>
      simp [webhookAmocrm, h1, contactsOrEmpty, isTruthy, iterate, forContacts, forOf]
  · intro h
    have hloop : ∀ st1, forContacts env st1 (pre ++ x :: post)
        = forContacts env st1 (pre ++ post) :=
      fun st1 => forOf_erase (processContact env) x (hcontact h) st1 pre post
    exact ⟨hloop st, by rw [webhookAmocrm_batch, webhookAmocrm_batch, hloop]⟩
  · intro h1 h2
    have hfilter := filterEmailFields_erase env.toLowerCase x (hcode h1 h2) pre post
    refine ⟨hfilter, fun before after => webhookAmocrm_congr env sheet _ _ ?_ before after⟩
    intro st1
    rw [processContact_contactWith, processContact_contactWith, hfilter]
  · intro h name hname
    rcases isAbsent_cases x _ h with h1 | h1 <;>
      simp [isEmailField, h1, hname, strictEquals]
  · intro h code hc
    rcases isAbsent_cases x _ h with h1 | h1 <;>
      (simp only [isEmailField, hc, h1]; cases strictEquals code "EMAIL" <;> simp)
  · intro h
    refine ⟨forOf_erase (processField env) x (hfield h) st pre post, ?_⟩
    intro hx before after
    refine webhookAmocrm_congr env sheet _ _ (fun st1 => ?_) before after
    rw [processContact_contactWith, processContact_contactWith]
    exact filterEmailFields_skip env x (hfield h) hx st1 pre post
  · intro h
    refine ⟨forOf_erase (processValue env) x (hvalue h) st pre post, ?_⟩
    intro code name fields1 fields2 before after
    refine webhookAmocrm_congr env sheet _ _ (fun st1 => ?_) before after
    rw [processContact_contactWith, processContact_contactWith]
    have hsame : isEmailField env.toLowerCase (customField code name (pre ++ x :: post))
        = isEmailField env.toLowerCase (customField code name (pre ++ post)) := by
      rw [isEmailField_customField _ _ _ (pre ++ x :: post),
        isEmailField_customField _ _ _ (pre ++ post)]
    have hproc : ∀ st2, processField env st2 (customField code name (pre ++ x :: post))
        = processField env st2 (customField code name (pre ++ post)) := by
      intro st2
      rw [processField_customField, processField_customField]
      exact forOf_erase (processValue env) x (hvalue h) st2 pre post
    exact filterEmailFields_congr env _ _ hsame hproc st1 fields1 fields2

/-- Instances of the amended C9: a body without contacts; a batch whose first contact
lacks custom_fields and whose second contact has a field without values, a value without
a raw value and candidates after them, which are checked and appended; and a value
without a raw value between two candidates. -/
theorem absent_fields_tolerated_witness :
    isAbsent (.obj []) "contacts" = true ∧ isAbsent (.obj []) "custom_fields" = true ∧
    isAbsent (.obj []) "value" = true ∧
    (webhookAmocrm envOk [] (batch ([] ++ .obj [] :: [mixedContact]))).state.log
      = [.appended "a@x.com", .appended "B@x.com"] ∧
    (webhookAmocrm envOk [] (batch ([] ++ .obj [] :: [mixedContact]))).crashed = false ∧
    (webhookAmocrm envOk [] (batch ([] ++ contactWith ([] ++ customField (some "EMAIL") none
        ([rawValue "a@x.com"] ++ .obj [] :: [rawValue "b@x.com"]) :: []) :: []))).state.log
      = [.appended "a@x.com", .appended "b@x.com"] ∧
    webhookAmocrm envOk [] (.obj []) = { state := initialState envOk [], crashed := false } ∧
    (forContacts envOk (initialState envOk []) ([] ++ .obj [] :: [mixedContact])
        = forContacts envOk (initialState envOk []) ([] ++ [mixedContact]) ∧
      webhookAmocrm envOk [] (batch ([] ++ .obj [] :: [mixedContact]))
        = webhookAmocrm envOk [] (batch ([] ++ [mixedContact]))) ∧
    webhookAmocrm envOk [] (batch ([] ++ contactWith ([] ++ customField (some "EMAIL") none
        ([rawValue "a@x.com"] ++ .obj [] :: [rawValue "b@x.com"]) :: []) :: []))
      = webhookAmocrm envOk [] (batch ([] ++ contactWith ([] ++ customField (some "EMAIL") none
        ([rawValue "a@x.com"] ++ [rawValue "b@x.com"]) :: []) :: [])) :=
  ⟨rfl, rfl, rfl, by decide, by decide, by decide,
    (absent_fields_tolerated envOk (initialState envOk []) [] (.obj []) []
      [mixedContact]).1 rfl,
    (absent_fields_tolerated envOk (initialState envOk []) [] (.obj []) []
      [mixedContact]).2.1 rfl,
    ((absent_fields_tolerated envOk (initialState envOk []) [] (.obj []) [rawValue "a@x.com"]
      [rawValue "b@x.com"]).2.2.2.2.2.2 rfl).2 (some "EMAIL") none [] [] [] []⟩

/-- C10: a webhook run leaves the rows it found in place and adds after them one row per
successful append call, in the order of the calls, which is the order of the candidates
in the batch (contacts, then fields, then values); `addedCount` is the number of rows
added. -/
theorem webhook_only_appends (env : Env) (sheet : List Record) (body : Json) :
    ∃ rows, (webhookAmocrm env sheet body).state.sheet = sheet ++ rows ∧
      rows.map Record.email
        = ((webhookAmocrm env sheet body).state.log.filter Event.isAppended).map Event.email ∧
      (webhookAmocrm env sheet body).state.addedCount = rows.length ∧
      (webhookAmocrm env sheet body).state.sheet.length
        = sheet.length + (webhookAmocrm env sheet body).state.addedCount ∧
      (webhookAmocrm env sheet body).state.log.map Event.email
        <+: specBatchEmails env.toLowerCase body ∧
      List.Sublist (rows.map Record.email) (specBatchEmails env.toLowerCase body) := by
  obtain ⟨rows, h1, h2⟩ :=
    runEmails_sheet env (initialState env sheet) (considered env body).1
  have hlog := webhookAmocrm_log env sheet body
  have hcount : (webhookAmocrm env sheet body).state.addedCount = rows.length := by
    rw [← List.length_map rows Record.email, h2, webhookAmocrm_addedCount,
      runEmails_addedCount, List.length_map, List.countP_eq_length_filter]
    simp [initialState]
  have hpre : (webhookAmocrm env sheet body).state.log.map Event.email
      <+: specBatchEmails env.toLowerCase body := by
    rw [hlog, eventsOf_map_email]
    exact (considered_spec env body).1
  have hsheet : (webhookAmocrm env sheet body).state.sheet = sheet ++ rows := by
    rw [webhookAmocrm_sheet]
    exact h1
  refine ⟨rows, hsheet, by rw [h2, hlog], hcount, ?_, hpre, ?_⟩
  · rw [hsheet, List.length_append, hcount]
  · rw [h2, ← hlog]
    exact ((List.filter_sublist _).map _).trans hpre.sublist

end Cutter
